import Mathlib

/-!
# importer: folder scan, line reframing and batch assembly

A shallow embedding of `importer.go`.

* Byte strings (`[]byte`, the contents of `bytes.Buffer`) are Lean `String`s; the
  program only appends them and tests them for emptiness.
* `ImportBatchSize` is a natural number `B`.  Go panics on `lineNo % 0`; the
  claims on the worker are stated for `1 ≤ B`, where Go's `%` on the
  non-negative `lineNo` and Lean's `%` on `Nat` agree.  `lineNo` counts the
  lines of one file and is kept unbounded.
* The environment is made explicit: what `reader.ReadLine()` returns during one
  file is a finite list of successful reads followed by the error that ends the
  loop; what `os.Open` and `gzip.NewReader` return is part of the work item; the
  `select` cases taken by a goroutine are a list of events.
* The buffered channels `todo` and `done` are treated as never full, so a send on
  them is an entry appended to a list.
* Of logging only whether `postToOpenTSDB` logs a POST as failed is kept, in the
  worker with outcomes (`importOneT`); its state is the one of `importOne`.
* For shutdown the goroutines are interleaved at their blocking operations
  (`sysStep`, `run`), the schedule being explicit.
-/

namespace Importer

/-! ## Worker: `importFile` and `postToOpenTSDB` -/

/-- A result `(line, isPrefix, nil)` of `reader.ReadLine()`. -/
structure Read where
  line : String
  isPrefix : Bool
  deriving DecidableEq, Repr

/-- The non-nil error that ends the read loop: `io.EOF` or any other error. -/
inductive ReadEnd where
  | eof
  | failed
  deriving DecidableEq, Repr

/-- The variables of `importFile` while one file is processed (`buf`, `lineNo`,
`isPartial`), with the payloads handed to `postToOpenTSDB` and the filenames sent
on `done`, oldest first. -/
structure State where
  buf : String := ""
  lineNo : Nat := 0
  isPartial : Bool := false
  posted : List String := []
  done : List String := []
  deriving DecidableEq, Repr

/-- `postToOpenTSDB(buf)`: the buffer's content is the body of one POST; the
deferred `buf.Reset()` empties the buffer whatever the outcome of the POST. -/
def postToOpenTSDB (s : State) : State :=
  { s with posted := s.posted ++ [s.buf], buf := "" }

/-- The bracket or separator written before the first bytes of line number `n`
(lines 118-123 and 140-145). -/
def openLine (B : Nat) (s : State) : State :=
  let s1 := if s.lineNo % B = 1 then { s with buf := s.buf ++ "[\n" } else s
  if s1.lineNo % B > 1 then { s1 with buf := s1.buf ++ ",\n" } else s1

/-- The closing bracket and the POST after the last bytes of a line (lines
130-133 and 148-151). -/
def closeLine (B : Nat) (s : State) : State :=
  if s.lineNo % B = 0 then postToOpenTSDB { s with buf := s.buf ++ "\n]" } else s

/-- One iteration of the read loop for a read with `err == nil` (lines 112-152). -/
def onRead (B : Nat) (s : State) (r : Read) : State :=
  if r.line.length = 0 then s
  else if !s.isPartial && r.isPrefix then
    let s1 := openLine B { s with lineNo := s.lineNo + 1 }
    { s1 with buf := s1.buf ++ r.line, isPartial := true }
  else if s.isPartial && !r.isPrefix then
    let s1 := closeLine B { s with buf := s.buf ++ r.line }
    { s1 with isPartial := false }
  else if s.isPartial && r.isPrefix then
    { s with buf := s.buf ++ r.line }
  else if !s.isPartial && !r.isPrefix then
    let s1 := openLine B { s with lineNo := s.lineNo + 1 }
    closeLine B { s1 with buf := s1.buf ++ r.line }
  else s

/-- The iterations of the read loop that see `err == nil`, in order. -/
def readLines (B : Nat) : List Read → State → State
  | [], s => s
  | r :: rs, s => readLines B rs (onRead B s r)

/-- The iteration that sees a non-nil error (lines 98-110): a read error breaks
out of the loop; end-of-stream flushes an open batch and sends the filename on
`done`. -/
def onEnd (B : Nat) (filename : String) (s : State) : ReadEnd → State
  | .failed => s
  | .eof =>
    let s1 := if s.lineNo % B > 0 then postToOpenTSDB { s with buf := s.buf ++ "\n]" } else s
    { s1 with done := s1.done ++ [filename] }

/-- What the file system gives for one filename: `os.Open` fails, or
`gzip.NewReader` fails, or the decompressed stream is read. -/
inductive FileInput where
  | openFailed
  | gzipFailed
  | stream (reads : List Read) (fin : ReadEnd)
  deriving DecidableEq, Repr

/-- The body of `case filename = <-todo` (lines 76-154), from fresh `buf`,
`lineNo` and `isPartial`. -/
def importOne (B : Nat) (filename : String) : FileInput → State
  | .openFailed => {}
  | .gzipFailed => {}
  | .stream reads fin => onEnd B filename (readLines B reads {}) fin

/-- A `select` case of `importFile` becoming ready: a filename taken from
`todo`, with what the file system gives for it, or the quit signal. -/
inductive WorkerEvent where
  | todo (filename : String) (file : FileInput)
  | quit
  deriving DecidableEq, Repr

/-- What the goroutine `importFile` has done so far: payloads handed to
`postToOpenTSDB`, filenames sent on `done`, and whether it has returned. -/
structure Worker where
  posted : List String := []
  done : List String := []
  exited : Bool := false
  deriving DecidableEq, Repr

/-- One pass through the `select` of `importFile` (lines 74-160); after the
return no event is received. -/
def workerStep (B : Nat) (w : Worker) : WorkerEvent → Worker
  | .todo filename file =>
    if w.exited then w
    else
      let r := importOne B filename file
      { w with posted := w.posted ++ r.posted, done := w.done ++ r.done }
  | .quit => { w with exited := true }

/-- The goroutine `importFile` run on a sequence of events. -/
def importFile (B : Nat) (evs : List WorkerEvent) : Worker :=
  evs.foldl (workerStep B) {}

/-- Each line returned whole by one terminal read. -/
def wholeReads (lines : List String) : List Read :=
  lines.map (fun l => { line := l, isPrefix := false })

/-- The reads of one logical line returned in the fragments `frs`: every
fragment but the last is flagged `isPrefix`, the last is terminal. -/
def fragReads : List String → List Read
  | [] => []
  | [f] => [{ line := f, isPrefix := false }]
  | f :: g :: rest => { line := f, isPrefix := true } :: fragReads (g :: rest)

/-- Concatenation of byte strings, in order. -/
def cat : List String → String
  | [] => ""
  | f :: fs => f ++ cat fs

/-- The bytes the loop writes to the buffer for whole line number `n`: what
`openLine` adds, then the line. -/
def piece (B n : Nat) (l : String) : String :=
  (if n % B = 1 then "[\n" else "") ++ ((if n % B > 1 then ",\n" else "") ++ l)

/-- The bytes the loop writes for the whole lines `ls` when `n` lines came
before them and none of them completes a batch. -/
def pieces (B : Nat) : Nat → List String → String
  | _, [] => ""
  | n, l :: ls => piece B (n + 1) l ++ pieces B (n + 1) ls

/-- The payload the loop builds from the lines `c` of one batch, the first of
them being the first line of the batch. -/
def batchBytes (B : Nat) (c : List String) : String :=
  pieces B 0 c ++ "\n]"

/-- The `k`-th group of `B` consecutive lines, counting from `0`: lines
`k*B+1 .. min((k+1)*B, n)`. -/
def chunk (B k : Nat) (lines : List String) : List String :=
  (lines.drop (k * B)).take B

/-- The `ceil(n / B)` groups of `B` consecutive lines, in order. -/
def chunks (B : Nat) (lines : List String) : List (List String) :=
  (List.range ((lines.length + B - 1) / B)).map (fun k => chunk B k lines)

/-- The payloads of the groups of `B` consecutive lines, in order. -/
def batches (B : Nat) (lines : List String) : List String :=
  (chunks B lines).map (batchBytes B)

/-! ## Worker with the outcome of each POST and the order of its effects -/

/-- What `http.Post` returns: an error, or a response with a status code. -/
inductive PostOutcome where
  | transportError
  | status (code : Nat)
  deriving DecidableEq, Repr

/-- An effect of `importFile` on the outside: a payload handed to `http.Post`,
with whether `postToOpenTSDB` logged it as failed, or a filename sent on `done`. -/
inductive Effect where
  | post (payload : String) (logged : Bool)
  | send (filename : String)
  deriving DecidableEq, Repr

/-- The variables of `importFile` together with its effects in the order in
which they happen. -/
structure Traced where
  st : State := {}
  trace : List Effect := []
  deriving DecidableEq, Repr

/-- Whether `postToOpenTSDB` logs the POST as failed (lines 170-179): on an
error, or on a status code other than 200. -/
def PostOutcome.logged : PostOutcome → Bool
  | .transportError => true
  | .status code => decide (code ≠ 200)

/-- `postToOpenTSDB(buf)` with the outcomes `outs` of the POSTs, indexed by the
number of POSTs made before; the deferred `buf.Reset()` runs on every path. -/
def postToOpenTSDBT (outs : Nat → PostOutcome) (t : Traced) : Traced :=
  { st := { t.st with posted := t.st.posted ++ [t.st.buf], buf := "" },
    trace := t.trace ++ [Effect.post t.st.buf (outs t.st.posted.length).logged] }

/-- The closing bracket and the POST after the last bytes of a line (lines
130-133 and 148-151), with outcomes. -/
def closeLineT (B : Nat) (outs : Nat → PostOutcome) (t : Traced) : Traced :=
  if t.st.lineNo % B = 0 then
    postToOpenTSDBT outs { t with st := { t.st with buf := t.st.buf ++ "\n]" } }
  else t

/-- One iteration of the read loop for a read with `err == nil` (lines 112-152),
with outcomes. -/
def onReadT (B : Nat) (outs : Nat → PostOutcome) (t : Traced) (r : Read) : Traced :=
  if r.line.length = 0 then t
  else if !t.st.isPartial && r.isPrefix then
    let s1 := openLine B { t.st with lineNo := t.st.lineNo + 1 }
    { t with st := { s1 with buf := s1.buf ++ r.line, isPartial := true } }
  else if t.st.isPartial && !r.isPrefix then
    let t1 := closeLineT B outs { t with st := { t.st with buf := t.st.buf ++ r.line } }
    { t1 with st := { t1.st with isPartial := false } }
  else if t.st.isPartial && r.isPrefix then
    { t with st := { t.st with buf := t.st.buf ++ r.line } }
  else if !t.st.isPartial && !r.isPrefix then
    let s1 := openLine B { t.st with lineNo := t.st.lineNo + 1 }
    closeLineT B outs { t with st := { s1 with buf := s1.buf ++ r.line } }
  else t

/-- The iterations of the read loop that see `err == nil`, with outcomes. -/
def readLinesT (B : Nat) (outs : Nat → PostOutcome) : List Read → Traced → Traced
  | [], t => t
  | r :: rs, t => readLinesT B outs rs (onReadT B outs t r)

/-- The iteration that sees a non-nil error (lines 98-110), with outcomes. -/
def onEndT (B : Nat) (outs : Nat → PostOutcome) (filename : String) (t : Traced) :
    ReadEnd → Traced
  | .failed => t
  | .eof =>
    let t1 :=
      if t.st.lineNo % B > 0 then
        postToOpenTSDBT outs { t with st := { t.st with buf := t.st.buf ++ "\n]" } }
      else t
    { st := { t1.st with done := t1.st.done ++ [filename] },
      trace := t1.trace ++ [Effect.send filename] }

/-- The body of `case filename = <-todo` (lines 76-154), with outcomes. -/
def importOneT (B : Nat) (outs : Nat → PostOutcome) (filename : String) : FileInput → Traced
  | .openFailed => {}
  | .gzipFailed => {}
  | .stream reads fin => onEndT B outs filename (readLinesT B outs reads {}) fin

/-- The payloads of a trace, in order. -/
def payloadsOf : List Effect → List String
  | [] => []
  | .post p _ :: es => p :: payloadsOf es
  | .send _ :: es => payloadsOf es

/-- The filenames sent on `done` in a trace, in order. -/
def sendsOf : List Effect → List String
  | [] => []
  | .post _ _ :: es => sendsOf es
  | .send f :: es => f :: sendsOf es

/-- An effect without the record of what was logged. -/
def Effect.erase : Effect → Effect
  | .post p _ => .post p false
  | .send f => .send f

/-- The trace lists the payloads of `posted` and the filenames of `done`. -/
def Traced.Agrees (t : Traced) : Prop :=
  payloadsOf t.trace = t.st.posted ∧ sendsOf t.trace = t.st.done

/-- While a file is read nothing has been sent on `done`, and the effects so far
are the POSTs of the payloads of `posted`, in order. -/
def Traced.Ordered (t : Traced) : Prop :=
  t.trace.map Effect.erase = t.st.posted.map (fun p => Effect.post p false) ∧ t.st.done = []

/-! ## The Batch Assembler rules as written in the specification -/

/-- Follows the specification (section 4.4), for the line with 1-based running
count `n`: an opening bracket if `n mod B = 1`, a separator if `n mod B > 1`, the
line verbatim, a closing bracket if `n mod B = 0`. -/
def assemblerLine (B n : Nat) (l : String) : String :=
  (if n % B = 1 then "[\n" else "") ++ ((if n % B > 1 then ",\n" else "") ++
    (l ++ (if n % B = 0 then "\n]" else "")))

/-- Follows the specification: the pieces of the lines `ls`, in source order,
when `n` lines came before them. -/
def assemblerBytes (B : Nat) : Nat → List String → String
  | _, [] => ""
  | n, l :: ls => assemblerLine B (n + 1) l ++ assemblerBytes B (n + 1) ls

/-! ## Coordinator: `coordinate` -/

/-- A channel operation of `coordinate`: a send on `todo` or a receive from
`done`. -/
inductive Act where
  | push (f : String)
  | retire (f : String)
  deriving DecidableEq, Repr

/-- What `filepath.Glob` returns. -/
inductive ScanResult where
  | failed
  | files (fs : List String)
  deriving DecidableEq, Repr

/-- A `select` case of `coordinate` becoming ready. -/
inductive Event where
  | tick (r : ScanResult)
  | done (f : String)
  | quit
  deriving DecidableEq, Repr

/-- The variables of `coordinate`: the map `toimp` (every key is mapped to
itself, so the key set is kept), whether timer `t1` is armed, whether the
goroutine has returned, and its channel operations, oldest first. -/
structure Coord where
  toimp : Finset String := ∅
  armed : Bool := true
  exited : Bool := false
  log : List Act := []
  deriving DecidableEq

/-- The loop over `files` (lines 46-52), on the map and the names sent on
`todo`. -/
def scanFiles : List String → Finset String × List String → Finset String × List String
  | [], st => st
  | f :: fs, (toimp, todo) =>
    scanFiles fs (if f ∈ toimp then (toimp, todo) else (insert f toimp, todo ++ [f]))

/-- One pass through the `select` of `coordinate` (lines 35-63).  The timer
channel delivers only while `t1` is armed, and firing disarms it; a tick on a
disarmed timer and any event after the return cannot be received. -/
def step (c : Coord) : Event → Coord
  | .tick r =>
    if c.exited || !c.armed then c
    else
      match r with
      | .failed => { c with armed := false }
      | .files fs =>
        let r := scanFiles fs (c.toimp, [])
        { c with toimp := r.1, log := c.log ++ r.2.map Act.push, armed := true }
  | .done f =>
    if c.exited then c
    else { c with toimp := c.toimp.erase f, log := c.log ++ [Act.retire f] }
  | .quit =>
    if c.exited then c else { c with armed := false, exited := true }

/-- The goroutine `coordinate` run on a sequence of events, from the empty map
and the timer armed by `time.NewTimer`. -/
def coordinate (evs : List Event) : Coord :=
  evs.foldl step {}

/-- The events `coordinate` can receive.  `filepath.Glob` returns an error only
for a malformed pattern (`ErrBadPattern`), and the pattern of line 39 is the
well-formed constant `*.gz`; an error of reading the directory is ignored by
`Glob`, which returns the names it has, possibly none.  So a tick carries a list
of names, and the branch of lines 40-43 is not taken. -/
def Event.receivable : Event → Bool
  | .tick .failed => false
  | _ => true

/-- The invariant of `coordinate` on the map and the channel operations: a
name sent on `todo` and not received from `done` since is a key of the map, and
between two sends of a name on `todo` the name is received from `done`. -/
def Good (T : Finset String) (log : List Act) : Prop :=
  (∀ f a b, log = a ++ Act.push f :: b → Act.retire f ∉ b → f ∈ T)
  ∧ (∀ f a b d, log = a ++ Act.push f :: b ++ Act.push f :: d → Act.retire f ∈ b)

/-! ## Shutdown: `main`, `coordinate` and `importFile` together

The three goroutines are interleaved at their blocking operations: the `select`
of `coordinate`, the `select` of `importFile` (a file taken from `todo` is
processed to its end in one step, as the worker does not look at `quit` while it
reads a file), and the blocking operations of `main`.  `quit` is unbuffered, so
a send of `main` completes together with the receive of one goroutine.  When
several cases of a `select` can proceed, Go takes any one of them; the schedule
lists which step is taken. -/

/-- Where `main` stands (lines 209-216): blocked in `<-sc`, blocked in the
`i`-th send `quit <- i`, blocked in `wg.Wait()`, or past it. -/
inductive MainPc where
  | awaitingSignal
  | sending (i : Nat)
  | waiting
  | returned
  deriving DecidableEq, Repr

/-- The goroutines and the channels between them: the names buffered in `todo`
and in `done`, the names the worker has taken from `todo` (each passed to
`os.Open`), and how many values of `quit` each goroutine has received. -/
structure Sys where
  main : MainPc := .awaitingSignal
  coord : Coord := {}
  worker : Worker := {}
  todoQ : List String := []
  doneQ : List String := []
  opened : List String := []
  coordGot : Nat := 0
  workerGot : Nat := 0
  deriving DecidableEq

/-- A step of the system: the OS signal reaching `main`, a `select` case of
`coordinate`, a `select` case of `importFile`, or the return of `wg.Wait()`. -/
inductive Choice where
  | osSignal
  | coordTick (r : ScanResult)
  | coordDone
  | coordQuit
  | workerTake (file : FileInput)
  | workerQuit
  | mainReturn
  deriving DecidableEq, Repr

/-- `main` after its `i`-th send on `quit` was received: the next iteration of
the loop of lines 212-214 with `rnum = 2`, or `wg.Wait()`. -/
def afterSend (i : Nat) : MainPc :=
  if i + 1 < 2 then .sending (i + 1) else .waiting

/-- The names a scan sends on `todo` from the map `T`. -/
def sentBy (T : Finset String) : ScanResult → List String
  | .failed => []
  | .files fs => (scanFiles fs (T, [])).2

/-- One step of the system, `none` when the step cannot be taken in this state:
a receive needs a value in the channel (or, for `quit`, `main` blocked in a
send), a goroutine that has returned takes no step, and `wg.Wait()` returns when
both goroutines have called `wg.Done()`. -/
def sysStep (B : Nat) (s : Sys) : Choice → Option Sys
  | .osSignal =>
    match s.main with
    | .awaitingSignal => some { s with main := .sending 0 }
    | _ => none
  | .coordTick r =>
    if s.coord.exited || !s.coord.armed then none
    else some { s with coord := step s.coord (.tick r),
                       todoQ := s.todoQ ++ sentBy s.coord.toimp r }
  | .coordDone =>
    match s.doneQ with
    | f :: rest =>
      if s.coord.exited then none
      else some { s with coord := step s.coord (.done f), doneQ := rest }
    | [] => none
  | .coordQuit =>
    match s.main with
    | .sending i =>
      if s.coord.exited then none
      else some { s with coord := step s.coord .quit, main := afterSend i,
                         coordGot := s.coordGot + 1 }
    | _ => none
  | .workerTake file =>
    match s.todoQ with
    | f :: rest =>
      if s.worker.exited then none
      else some { s with worker := workerStep B s.worker (.todo f file), todoQ := rest,
                         doneQ := s.doneQ ++ (importOne B f file).done,
                         opened := s.opened ++ [f] }
    | [] => none
  | .workerQuit =>
    match s.main with
    | .sending i =>
      if s.worker.exited then none
      else some { s with worker := workerStep B s.worker .quit, main := afterSend i,
                         workerGot := s.workerGot + 1 }
    | _ => none
  | .mainReturn =>
    match s.main with
    | .waiting =>
      if s.coord.exited && s.worker.exited then some { s with main := .returned } else none
    | _ => none

/-- The system run along a schedule, `none` when some step cannot be taken. -/
def run (B : Nat) : Sys → List Choice → Option Sys
  | s, [] => some s
  | s, c :: cs =>
    match sysStep B s c with
    | some s2 => run B s2 cs
    | none => none

/-- The states of the claim on shutdown: the signal is offered (`main` is
blocked in its first send on `quit`), neither goroutine has returned or received
a value of `quit`, the worker is in its `select` and has taken nothing of what
`todo` holds. -/
def ShutdownStart (s : Sys) : Prop :=
  s.main = .sending 0 ∧ s.coord.exited = false ∧ s.worker.exited = false
  ∧ s.coordGot = 0 ∧ s.workerGot = 0 ∧ s.opened = []

/-- The invariant of shutdown: each goroutine has returned exactly when it has
received one value of `quit`, none has received more, and `main` has completed
as many sends as were received. -/
def ShutdownInv (s : Sys) : Prop :=
  s.coordGot ≤ 1 ∧ s.workerGot ≤ 1
  ∧ (s.coord.exited = true ↔ s.coordGot = 1)
  ∧ (s.worker.exited = true ↔ s.workerGot = 1)
  ∧ (match s.main with
      | .awaitingSignal => s.coordGot + s.workerGot = 0
      | .sending i => i = s.coordGot + s.workerGot ∧ i < 2
      | .waiting => s.coordGot + s.workerGot = 2
      | .returned => s.coordGot + s.workerGot = 2)

/-- A state of shutdown with three names queued: one scan has sent `a.gz`,
`b.gz`, `c.gz` on `todo`, the worker has taken none, and `main` is blocked in its
first send on `quit`. -/
def queuedStart : Sys :=
  { main := .sending 0,
    coord := coordinate [.tick (.files ["a.gz", "b.gz", "c.gz"])],
    todoQ := ["a.gz", "b.gz", "c.gz"] }

/-! ## Lemmas on the read loop -/

theorem readLines_append (B : Nat) (rs rs2 : List Read) (s : State) :
    readLines B (rs ++ rs2) s = readLines B rs2 (readLines B rs s) := by
  induction rs generalizing s with
  | nil => rfl
  | cons r rs ih => simp [readLines, ih]

theorem openLine_eq (B : Nat) (s : State) :
    openLine B s = { s with buf := s.buf ++ ((if s.lineNo % B = 1 then "[\n" else "") ++
      (if s.lineNo % B > 1 then ",\n" else "")) } := by
  unfold openLine
  by_cases h1 : s.lineNo % B = 1
  · simp [h1]
  · by_cases h2 : s.lineNo % B > 1
    · simp [h1, h2]
    · simp [h1, h2]

theorem onRead_whole (B : Nat) (s : State) (l : String) (hl : l.length ≠ 0)
    (hp : s.isPartial = false) :
    onRead B s { line := l, isPrefix := false } =
      closeLine B { s with buf := s.buf ++ piece B (s.lineNo + 1) l, lineNo := s.lineNo + 1 } := by
  simp [onRead, hl, hp, openLine_eq, piece, String.append_assoc]

theorem succ_mod_of_lt {B n : Nat} (h : n % B + 1 < B) : (n + 1) % B = n % B + 1 := by
  have h1 : 1 % B = 1 := Nat.mod_eq_of_lt (by omega)
  rw [Nat.add_mod, h1, Nat.mod_eq_of_lt h]

theorem succ_mod_of_eq {B n : Nat} (h : n % B + 1 = B) : (n + 1) % B = 0 := by
  have h2 : n = B * (n / B) + n % B := (Nat.div_add_mod n B).symm
  have h3 : n + 1 = B * (n / B + 1) := by rw [Nat.mul_add]; omega
  rw [h3]; exact Nat.mul_mod_right _ _

theorem piece_congr {B n m : Nat} (h : n % B = m % B) (l : String) :
    piece B n l = piece B m l := by
  simp [piece, h]

theorem pieces_congr {B : Nat} (c : List String) {n m : Nat} (h : n % B = m % B) :
    pieces B n c = pieces B m c := by
  induction c generalizing n m with
  | nil => rfl
  | cons l c ih =>
    have h1 : (n + 1) % B = (m + 1) % B := by rw [Nat.add_mod, h, ← Nat.add_mod]
    simp only [pieces]
    rw [piece_congr h1, ih h1]

/-- Whole lines that do not reach the end of the current batch only grow the
buffer. -/
theorem readLines_whole_open (B : Nat) (c : List String) :
    ∀ s : State, (∀ l ∈ c, l.length ≠ 0) → s.isPartial = false →
      s.lineNo % B + c.length < B →
      readLines B (wholeReads c) s =
        { s with buf := s.buf ++ pieces B s.lineNo c, lineNo := s.lineNo + c.length } := by
  induction c with
  | nil => intro s _ _ _; simp [wholeReads, readLines, pieces]
  | cons l c ih =>
    intro s hne hp hlt
    have hl : l.length ≠ 0 := hne l (by simp)
    simp only [List.length_cons] at hlt
    have hm : (s.lineNo + 1) % B = s.lineNo % B + 1 := succ_mod_of_lt (by omega)
    have hstep : onRead B s { line := l, isPrefix := false } =
        { s with buf := s.buf ++ piece B (s.lineNo + 1) l, lineNo := s.lineNo + 1 } := by
      rw [onRead_whole B s l hl hp]
      simp [closeLine, hm]
    simp only [wholeReads, List.map_cons, readLines]
    rw [hstep]
    have := ih { s with buf := s.buf ++ piece B (s.lineNo + 1) l, lineNo := s.lineNo + 1 }
      (fun x hx => hne x (by simp [hx])) hp (by simp only [hm]; omega)
    simp only [wholeReads] at this
    rw [this]
    simp [pieces, String.append_assoc, Nat.add_assoc, Nat.add_comm 1]

/-- Whole lines that exactly fill the current batch end in one POST of the
buffer, closed by the bracket. -/
theorem readLines_whole_close (B : Nat) (c : List String) :
    ∀ s : State, (∀ l ∈ c, l.length ≠ 0) → s.isPartial = false → c ≠ [] →
      s.lineNo % B + c.length = B →
      readLines B (wholeReads c) s =
        { s with buf := "", lineNo := s.lineNo + c.length,
                 posted := s.posted ++ [s.buf ++ pieces B s.lineNo c ++ "\n]"] } := by
  induction c with
  | nil => intro s _ _ h; exact absurd rfl h
  | cons l c ih =>
    intro s hne hp _ hlen
    have hl : l.length ≠ 0 := hne l (by simp)
    simp only [List.length_cons] at hlen
    simp only [wholeReads, List.map_cons, readLines]
    rw [onRead_whole B s l hl hp]
    by_cases hc : c = []
    · subst hc
      have hm : (s.lineNo + 1) % B = 0 := succ_mod_of_eq (by simpa using hlen)
      simp [closeLine, hm, postToOpenTSDB, readLines, pieces, String.append_assoc]
    · have hpos : 0 < c.length := List.length_pos.mpr hc
      have hm : (s.lineNo + 1) % B = s.lineNo % B + 1 := succ_mod_of_lt (by omega)
      have hcl : closeLine B
          { s with buf := s.buf ++ piece B (s.lineNo + 1) l, lineNo := s.lineNo + 1 } =
          { s with buf := s.buf ++ piece B (s.lineNo + 1) l, lineNo := s.lineNo + 1 } := by
        simp [closeLine, hm]
      rw [hcl]
      have := ih { s with buf := s.buf ++ piece B (s.lineNo + 1) l, lineNo := s.lineNo + 1 }
        (fun x hx => hne x (by simp [hx])) hp hc (by simp only [hm]; omega)
      simp only [wholeReads] at this
      rw [this]
      simp [pieces, String.append_assoc, Nat.add_assoc, Nat.add_comm 1]

theorem ceil_zero {B : Nat} (hB : 0 < B) : (0 + B - 1) / B = 0 :=
  Nat.div_eq_of_lt (by omega)

theorem ceil_small {B n : Nat} (h0 : 0 < n) (h : n ≤ B) : (n + B - 1) / B = 1 := by
  have h1 : n + B - 1 = (n - 1) + B := by omega
  rw [h1, Nat.add_div_right _ (by omega), Nat.div_eq_of_lt (by omega)]

theorem ceil_step {B n : Nat} (hB : 0 < B) (h : B ≤ n) :
    (n + B - 1) / B = (n - B + B - 1) / B + 1 := by
  have h1 : n + B - 1 = (n - B + B - 1) + B := by omega
  rw [h1, Nat.add_div_right _ hB]

theorem ceil_spec {B : Nat} (hB : 0 < B) (n : Nat) :
    (n + B - 1) / B * B < n + B ∧ n ≤ (n + B - 1) / B * B := by
  have h1 : (n + B - 1) / B * B ≤ n + B - 1 := Nat.div_mul_le_self _ _
  have h2 : n + B - 1 < B * ((n + B - 1) / B + 1) := Nat.lt_mul_div_succ _ hB
  rw [Nat.mul_add, Nat.mul_one, Nat.mul_comm] at h2
  omega

theorem chunks_nil (B : Nat) (hB : 0 < B) : chunks B [] = [] := by
  have hz : (B - 1) / B = 0 := Nat.div_eq_of_lt (by omega)
  simp [chunks, hz]

theorem chunks_small {B : Nat} (lines : List String) (h0 : lines ≠ [])
    (h : lines.length ≤ B) : chunks B lines = [lines] := by
  have hpos : 0 < lines.length := List.length_pos.mpr h0
  rw [chunks, ceil_small hpos h]
  simp [chunk, List.range_succ, List.take_of_length_le h]

theorem chunks_step {B : Nat} (hB : 0 < B) (lines : List String) (h : B ≤ lines.length) :
    chunks B lines = lines.take B :: chunks B (lines.drop B) := by
  unfold chunks
  rw [ceil_step hB h, List.range_succ_eq_map, List.length_drop]
  simp only [List.map_cons, List.map_map, chunk, Nat.zero_mul, List.drop_zero]
  congr 1
  apply List.map_congr_left
  intro k _
  simp [Function.comp, List.drop_drop, Nat.succ_mul, Nat.add_comm]

theorem batches_small {B : Nat} (lines : List String) (h0 : lines ≠ [])
    (h : lines.length ≤ B) : batches B lines = [batchBytes B lines] := by
  simp [batches, chunks_small lines h0 h]

theorem batches_step {B : Nat} (hB : 0 < B) (lines : List String) (h : B ≤ lines.length) :
    batches B lines = batchBytes B (lines.take B) :: batches B (lines.drop B) := by
  simp [batches, chunks_step hB lines h]

/-- The groups, put end to end, are the lines. -/
theorem chunks_flatten (B : Nat) (hB : 0 < B) :
    ∀ (n : Nat) (lines : List String), lines.length = n → (chunks B lines).flatten = lines := by
  intro n
  induction n using Nat.strong_induction_on with
  | _ n ih =>
    intro lines hlen
    by_cases hlt : lines.length < B
    · by_cases hnil : lines = []
      · subst hnil; simp [chunks_nil B hB]
      · simp [chunks_small lines hnil hlt.le]
    · have hge : B ≤ lines.length := by omega
      rw [chunks_step hB lines hge, List.flatten_cons,
        ih (lines.drop B).length (by rw [List.length_drop]; omega) (lines.drop B) rfl,
        List.take_append_drop]

theorem chunk_length (B k : Nat) (lines : List String) :
    (chunk B k lines).length = min B (lines.length - k * B) := by
  simp [chunk, List.length_take, List.length_drop]

theorem chunk_getElem? (B k i : Nat) (lines : List String) (hi : i < B) :
    (chunk B k lines)[i]? = lines[k * B + i]? := by
  simp [chunk, List.getElem?_take, hi, List.getElem?_drop]

/-- A file of whole non-empty lines, read from the start of a batch: the
payloads are those of the groups of `B` lines, the buffer ends empty and the
filename is sent on `done`. -/
theorem importWhole_from (B : Nat) (hB : 0 < B) (name : String) :
    ∀ (n : Nat) (lines : List String), lines.length = n → (∀ l ∈ lines, l.length ≠ 0) →
      ∀ s : State, s.isPartial = false → s.lineNo % B = 0 → s.buf = "" →
      onEnd B name (readLines B (wholeReads lines) s) .eof =
        { buf := "", lineNo := s.lineNo + lines.length, isPartial := false,
          posted := s.posted ++ batches B lines, done := s.done ++ [name] } := by
  intro n
  induction n using Nat.strong_induction_on with
  | _ n ih =>
    intro lines hlen hne s hp h0 hbuf
    by_cases hlt : lines.length < B
    · rw [readLines_whole_open B lines s hne hp (by omega)]
      have hmod : (s.lineNo + lines.length) % B = lines.length := by
        rw [Nat.add_mod, h0, Nat.zero_add, Nat.mod_mod, Nat.mod_eq_of_lt hlt]
      by_cases hnil : lines = []
      · subst hnil
        have hz : (B - 1) / B = 0 := Nat.div_eq_of_lt (by omega)
        simp [onEnd, h0, hp, hbuf, batches, chunks, hz, pieces]
      · have hpos : 0 < lines.length := List.length_pos.mpr hnil
        have hc : pieces B s.lineNo lines = pieces B 0 lines :=
          pieces_congr lines (by simp [h0])
        have hs : batches B lines = [batchBytes B lines] := batches_small lines hnil hlt.le
        simp [onEnd, hmod, hpos, postToOpenTSDB, hp, hbuf, hs, batchBytes, hc]
    · have hge : B ≤ lines.length := by omega
      have hsplit : wholeReads lines = wholeReads (lines.take B) ++ wholeReads (lines.drop B) := by
        simp [wholeReads, ← List.map_append, List.take_append_drop]
      have htake : (lines.take B).length = B := by simp [List.length_take, hge]
      have hcl := readLines_whole_close B (lines.take B) s
        (fun l hl => hne l (List.mem_of_mem_take hl)) hp
        (by intro h; rw [h] at htake; simp at htake; omega) (by rw [htake, h0, Nat.zero_add])
      have hc : pieces B s.lineNo (lines.take B) = pieces B 0 (lines.take B) :=
        pieces_congr _ (by simp [h0])
      rw [hsplit, readLines_append, hcl]
      have hrec := ih (lines.drop B).length (by rw [List.length_drop]; omega) (lines.drop B) rfl
        (fun l hl => hne l (List.mem_of_mem_drop hl))
        { s with buf := "", lineNo := s.lineNo + (lines.take B).length,
                 posted := s.posted ++ [s.buf ++ pieces B s.lineNo (lines.take B) ++ "\n]"] }
        hp (by simp [htake, Nat.add_mod, h0]) rfl
      rw [hrec, batches_step hB lines hge]
      simp [htake, hbuf, hc, batchBytes, List.length_drop]
      omega

/-- The whole result of `importOne` on a file of whole non-empty lines. -/
theorem importOne_whole (B : Nat) (hB : 0 < B) (name : String) (lines : List String)
    (hne : ∀ l ∈ lines, l.length ≠ 0) :
    importOne B name (.stream (wholeReads lines) .eof) =
      { buf := "", lineNo := lines.length, isPartial := false,
        posted := batches B lines, done := [name] } := by
  have := importWhole_from B hB name lines.length lines rfl hne {} rfl (by simp) rfl
  simpa [importOne] using this

/-! ## Lemmas on fragmented lines -/

theorem closeLine_isPartial (B : Nat) (s : State) (b : Bool) :
    { closeLine B s with isPartial := b } = closeLine B { s with isPartial := b } := by
  unfold closeLine
  by_cases h : s.lineNo % B = 0
  · simp [h, postToOpenTSDB]
  · simp [h]

theorem onRead_isPartial_whole (B : Nat) (s : State) (l : String) (hp : s.isPartial = false) :
    (onRead B s { line := l, isPrefix := false }).isPartial = false := by
  by_cases hl : l.length = 0
  · simp [onRead, hl, hp]
  · rw [onRead_whole B s l hl hp]
    unfold closeLine
    by_cases h : (s.lineNo + 1) % B = 0
    · simp [h, postToOpenTSDB, hp]
    · simp [h, hp]

theorem readLines_isPartial_whole (B : Nat) (lines : List String) :
    ∀ s : State, s.isPartial = false → (readLines B (wholeReads lines) s).isPartial = false := by
  induction lines with
  | nil => intro s hp; simpa [wholeReads, readLines] using hp
  | cons l lines ih =>
    intro s hp
    have := ih _ (onRead_isPartial_whole B s l hp)
    simpa [wholeReads, readLines] using this

theorem cat_length_ne_zero (f : String) (rest : List String) (hf : f.length ≠ 0) :
    (cat (f :: rest)).length ≠ 0 := by
  simp only [cat, String.length_append]
  omega

/-- Inside a fragmented line: the remaining fragments are appended to the
buffer and the line is closed at the terminal one. -/
theorem readLines_frag_tail (B : Nat) (rest : List String) :
    ∀ (g : String) (s : State), (∀ f ∈ g :: rest, f.length ≠ 0) → s.isPartial = true →
      readLines B (fragReads (g :: rest)) s =
        closeLine B { s with buf := s.buf ++ cat (g :: rest), isPartial := false } := by
  induction rest with
  | nil =>
    intro g s hne hp
    have hg : g.length ≠ 0 := hne g (by simp)
    simp [fragReads, readLines, onRead, hg, hp, cat, closeLine_isPartial]
  | cons g2 rest ih =>
    intro g s hne hp
    have hg : g.length ≠ 0 := hne g (by simp)
    have := ih g2 { s with buf := s.buf ++ g } (fun f hf => hne f (by simp [hf])) hp
    simp only [fragReads, readLines]
    have hstep : onRead B s { line := g, isPrefix := true } = { s with buf := s.buf ++ g } := by
      simp [onRead, hg, hp]
    rw [hstep, this]
    simp [cat, String.append_assoc]

/-- One logical line read in fragments leaves the worker in the state it reaches
when the concatenation of the fragments is returned by one terminal read. -/
theorem readLines_frag (B : Nat) (l : List String) (s : State) (hl : l ≠ [])
    (hne : ∀ f ∈ l, f.length ≠ 0) (hp : s.isPartial = false) :
    readLines B (fragReads l) s = onRead B s { line := cat l, isPrefix := false } := by
  match l, hl, hne with
  | [f], _, _ => simp [fragReads, readLines, cat]
  | f :: g :: rest, _, hne =>
    have hf : f.length ≠ 0 := hne f (by simp)
    have hstep : onRead B s { line := f, isPrefix := true } =
        { s with buf := s.buf ++ piece B (s.lineNo + 1) f, lineNo := s.lineNo + 1,
                 isPartial := true } := by
      simp [onRead, hf, hp, openLine_eq, piece, String.append_assoc]
    rw [onRead_whole B s _ (cat_length_ne_zero f (g :: rest) hf) hp]
    simp only [fragReads, readLines]
    rw [hstep, readLines_frag_tail B rest g _ (fun x hx => hne x (by simp [hx])) rfl]
    simp [cat, piece, String.append_assoc, hp]

theorem readLines_frags (B : Nat) (ls : List (List String)) :
    ∀ s : State, (∀ l ∈ ls, l ≠ [] ∧ ∀ f ∈ l, f.length ≠ 0) → s.isPartial = false →
      readLines B (ls.flatMap fragReads) s = readLines B (wholeReads (ls.map cat)) s := by
  induction ls with
  | nil => intro s _ _; rfl
  | cons l ls ih =>
    intro s h hp
    have hl := h l (by simp)
    simp only [List.flatMap_cons, readLines_append, List.map_cons, wholeReads, readLines]
    rw [readLines_frag B l s hl.1 hl.2 hp]
    exact ih _ (fun x hx => h x (by simp [hx])) (onRead_isPartial_whole B s _ hp)

theorem closeLine_done (B : Nat) (s : State) : (closeLine B s).done = s.done := by
  unfold closeLine
  by_cases h : s.lineNo % B = 0
  · simp [h, postToOpenTSDB]
  · simp [h]

theorem onRead_done (B : Nat) (s : State) (r : Read) : (onRead B s r).done = s.done := by
  unfold onRead
  split
  · rfl
  · split
    · simp [openLine_eq]
    · split
      · simp [closeLine_done]
      · split
        · rfl
        · split
          · simp [closeLine_done, openLine_eq]
          · rfl

theorem readLines_done (B : Nat) (rs : List Read) :
    ∀ s : State, (readLines B rs s).done = s.done := by
  induction rs with
  | nil => intro s; rfl
  | cons r rs ih =>
    intro s
    simp only [readLines, ih, onRead_done]

/-! ## Claims on the worker -/

/-- C1, evaluated at the example `B = 2` with the lines `{"a":1}`, `{"a":2}`,
`{"a":3}`: the first payload handed to `postToOpenTSDB` has no `,\n` between its
two lines (line 2 has `lineNo % B = 0`, so neither the bracket nor the separator
is written before it); the payloads are not the two JSON arrays
`[\n{"a":1},\n{"a":2}\n]` and `[\n{"a":3}\n]`. -/
theorem payload_lacks_separator :
    (importOne 2 "f" (.stream
        (wholeReads ["\x7b\"a\":1\x7d", "\x7b\"a\":2\x7d", "\x7b\"a\":3\x7d"]) .eof)).posted
      = ["[\n\x7b\"a\":1\x7d\x7b\"a\":2\x7d\n]", "[\n\x7b\"a\":3\x7d\n]"]
    ∧ (importOne 2 "f" (.stream
        (wholeReads ["\x7b\"a\":1\x7d", "\x7b\"a\":2\x7d", "\x7b\"a\":3\x7d"]) .eof)).posted
      ≠ ["[\n\x7b\"a\":1\x7d,\n\x7b\"a\":2\x7d\n]", "[\n\x7b\"a\":3\x7d\n]"] := by
  decide

/-- C2: for a batch size `B ≥ 1` and `n` non-empty lines, each returned by one
terminal read and followed by end-of-stream, the number of payloads handed to
`postToOpenTSDB` is `ceil(n / B)`; payload `k` (from `0`) is built from the lines
`k*B+1 .. min((k+1)*B, n)` and from nothing else, so the groups put end to end
are the lines in order; every group but the last has exactly `B` lines, the
last has between `1` and `B`, none has more than `B`, and zero lines give zero
payloads. -/
theorem deliveries_partition (B : Nat) (hB : 1 ≤ B) (name : String) (lines : List String)
    (hne : ∀ l ∈ lines, l.length ≠ 0) :
    (importOne B name (.stream (wholeReads lines) .eof)).posted.length
        = (lines.length + B - 1) / B
    ∧ ((lines.length + B - 1) / B * B < lines.length + B
        ∧ lines.length ≤ (lines.length + B - 1) / B * B)
    ∧ (∀ k, k < (lines.length + B - 1) / B →
        (importOne B name (.stream (wholeReads lines) .eof)).posted[k]?
          = some (batchBytes B (chunk B k lines)))
    ∧ (∀ k i, i < B → (chunk B k lines)[i]? = lines[k * B + i]?)
    ∧ (∀ k, (chunk B k lines).length = min B (lines.length - k * B))
    ∧ ((List.range ((lines.length + B - 1) / B)).map (fun k => chunk B k lines)).flatten = lines
    ∧ (∀ k, k + 1 < (lines.length + B - 1) / B → (chunk B k lines).length = B)
    ∧ (∀ k, k + 1 = (lines.length + B - 1) / B →
        1 ≤ (chunk B k lines).length ∧ (chunk B k lines).length ≤ B)
    ∧ (∀ k, (chunk B k lines).length ≤ B)
    ∧ (lines = [] → (importOne B name (.stream (wholeReads lines) .eof)).posted = []) := by
  have hc := ceil_spec hB lines.length
  rw [importOne_whole B hB name lines hne]
  refine ⟨by simp [batches, chunks], hc, ?_, ?_, fun k => chunk_length B k lines, ?_, ?_, ?_, ?_, ?_⟩
  · intro k hk
    simp [batches, chunks, hk]
  · intro k i hi
    exact chunk_getElem? B k i lines hi
  · exact chunks_flatten B hB lines.length lines rfl
  · intro k hk
    rw [chunk_length]
    have h1 : (k + 2) * B ≤ (lines.length + B - 1) / B * B := Nat.mul_le_mul_right B hk
    rw [Nat.add_mul] at h1
    omega
  · intro k hk
    rw [chunk_length]
    have h1 := hc.1
    rw [← hk, Nat.add_mul, Nat.one_mul] at h1
    omega
  · intro k
    rw [chunk_length]
    omega
  · intro h
    subst h
    simp [batches, chunks_nil B hB]

/-- C2 at `B = 2` and three lines: two payloads, built from lines 1-2 and from
line 3. -/
theorem deliveries_partition_witness :
    1 ≤ 2 ∧ (∀ l ∈ ["a", "b", "c"], l.length ≠ 0)
    ∧ (importOne 2 "f" (.stream (wholeReads ["a", "b", "c"]) .eof)).posted.length
        = (["a", "b", "c"].length + 2 - 1) / 2
    ∧ (importOne 2 "f" (.stream (wholeReads ["a", "b", "c"]) .eof)).posted[1]?
        = some (batchBytes 2 (chunk 2 1 ["a", "b", "c"]))
    ∧ chunk 2 0 ["a", "b", "c"] = ["a", "b"] ∧ chunk 2 1 ["a", "b", "c"] = ["c"] :=
  ⟨by decide, by decide,
    (deliveries_partition 2 (by decide) "f" ["a", "b", "c"] (by decide)).1,
    (deliveries_partition 2 (by decide) "f" ["a", "b", "c"] (by decide)).2.2.1 1 (by decide),
    by decide, by decide⟩

/-- C3: for a batch size `B ≥ 1` and logical lines that are each returned as one
or more non-empty fragments (all but the last flagged `isPrefix`, the last
terminal), followed by end-of-stream, `importOne` ends in the same state (same
payloads in the same order, same send on `done`, same buffer and line count)
as when each logical line is returned whole by one terminal read; and from any
state outside a partial line, reading the fragments of one line appends to the
buffer the bracket or separator of that line followed by the concatenation of
the fragments in read order, then closes the batch as for a whole line. -/
theorem reframing_roundtrip (B : Nat) (_hB : 1 ≤ B) (name : String) (ls : List (List String))
    (hls : ∀ l ∈ ls, l ≠ [] ∧ ∀ f ∈ l, f.length ≠ 0) :
    importOne B name (.stream (ls.flatMap fragReads) .eof)
      = importOne B name (.stream (wholeReads (ls.map cat)) .eof)
    ∧ (∀ l ∈ ls, ∀ s : State, s.isPartial = false →
        readLines B (fragReads l) s
          = closeLine B { s with buf := s.buf ++ piece B (s.lineNo + 1) (cat l),
                                 lineNo := s.lineNo + 1 }
        ∧ readLines B (fragReads l) s = onRead B s { line := cat l, isPrefix := false }) := by
  refine ⟨?_, ?_⟩
  · simp only [importOne]
    rw [readLines_frags B ls {} hls rfl]
  · intro l hl s hp
    have h := hls l hl
    have hcat : (cat l).length ≠ 0 := by
      match l, h.1, h.2 with
      | f :: rest, _, hne => exact cat_length_ne_zero f rest (hne f (by simp))
    rw [readLines_frag B l s h.1 h.2 hp]
    exact ⟨onRead_whole B s _ hcat hp, rfl⟩

/-- C3 at `B = 2`: the line `abc` read as `a`, `b`, `c` and the line `de` read
whole give the payload of the whole lines `abc`, `de`. -/
theorem reframing_roundtrip_witness :
    1 ≤ 2 ∧ (∀ l ∈ [["a", "b", "c"], ["de"]], l ≠ [] ∧ ∀ f ∈ l, f.length ≠ 0)
    ∧ importOne 2 "f" (.stream ([["a", "b", "c"], ["de"]].flatMap fragReads) .eof)
      = importOne 2 "f" (.stream (wholeReads ([["a", "b", "c"], ["de"]].map cat)) .eof) :=
  ⟨by decide, by decide,
    (reframing_roundtrip 2 (by decide) "f" [["a", "b", "c"], ["de"]] (by decide)).1⟩

theorem importOne_done_eof (B : Nat) (name : String) (reads : List Read) :
    (importOne B name (.stream reads .eof)).done = [name] := by
  simp only [importOne, onEnd]
  split
  · simp [postToOpenTSDB, readLines_done]
  · simp [readLines_done]

theorem importOne_done_failed (B : Nat) (name : String) (reads : List Read) :
    (importOne B name (.stream reads .failed)).done = [] := by
  simp [importOne, onEnd, readLines_done]

/-- C5: for a batch size `B ≥ 1` and a filename taken from `todo`, `importOne`
sends the filename on `done` if and only if `os.Open` and `gzip.NewReader`
succeed and the read loop ends with `io.EOF`, and then it sends it exactly once
and sends nothing else; a stream with no read before `io.EOF` gives no payload
and one send; an open failure, a gzip failure and a read error give no send.
The worker goroutine adds exactly these sends to those made before. -/
theorem completion_iff (B : Nat) (_hB : 1 ≤ B) (name : String) (file : FileInput) :
    (name ∈ (importOne B name file).done ↔ ∃ reads, file = .stream reads .eof)
    ∧ ((∃ reads, file = .stream reads .eof) → (importOne B name file).done = [name])
    ∧ ((¬ ∃ reads, file = .stream reads .eof) → (importOne B name file).done = [])
    ∧ ((importOne B name (.stream [] .eof)).posted = []
        ∧ (importOne B name (.stream [] .eof)).done = [name])
    ∧ (importOne B name .openFailed).done = []
    ∧ (importOne B name .gzipFailed).done = []
    ∧ (∀ reads, (importOne B name (.stream reads .failed)).done = [])
    ∧ (∀ w : Worker, w.exited = false →
        (workerStep B w (.todo name file)).done = w.done ++ (importOne B name file).done) := by
  refine ⟨?_, ?_, ?_, ⟨?_, importOne_done_eof B name []⟩, rfl, rfl,
    importOne_done_failed B name, ?_⟩
  · cases file with
    | openFailed => simp [importOne]
    | gzipFailed => simp [importOne]
    | stream reads fin =>
      cases fin with
      | eof => simp [importOne_done_eof]
      | failed => simp [importOne_done_failed]
  · rintro ⟨reads, rfl⟩
    exact importOne_done_eof B name reads
  · intro h
    cases file with
    | openFailed => rfl
    | gzipFailed => rfl
    | stream reads fin =>
      cases fin with
      | eof => exact absurd ⟨reads, rfl⟩ h
      | failed => exact importOne_done_failed B name reads
  · simp [importOne, onEnd, readLines]
  · intro w hw
    simp [workerStep, hw]

/-- C5 at `B = 2`: a file of one line that ends with `io.EOF` is sent on `done`
once. -/
theorem completion_iff_witness :
    1 ≤ 2 ∧ (∃ reads, FileInput.stream [⟨"a", false⟩] .eof = .stream reads .eof)
    ∧ (importOne 2 "f" (.stream [⟨"a", false⟩] .eof)).done = ["f"] :=
  ⟨by decide, ⟨_, rfl⟩,
    (completion_iff 2 (by decide) "f" (.stream [⟨"a", false⟩] .eof)).2.1 ⟨_, rfl⟩⟩

/-- C6, evaluated at `B = 2` and the reads `x` (terminal), `y` (prefix) followed
by `io.EOF`: the second line is counted at its first fragment, so at `io.EOF`
`lineNo % B = 0`, nothing is flushed, and the filename is sent on `done` while
the buffer still holds both lines; no payload was handed to `postToOpenTSDB`. -/
theorem eof_leaves_buffer_unflushed :
    (importOne 2 "f" (.stream [⟨"x", false⟩, ⟨"y", true⟩] .eof)).done = ["f"]
    ∧ (importOne 2 "f" (.stream [⟨"x", false⟩, ⟨"y", true⟩] .eof)).buf = "[\nxy"
    ∧ (importOne 2 "f" (.stream [⟨"x", false⟩, ⟨"y", true⟩] .eof)).posted = []
    ∧ (importOne 2 "f" (.stream [⟨"x", false⟩, ⟨"y", true⟩] .eof)).lineNo % 2 = 0 := by
  decide

/-- C7, evaluated at `B = 3` and the line `ab` returned as the prefix fragment
`ab` and a zero-length terminal fragment, followed by the whole line `cd`: the
zero-length read is skipped before `isPartial` is looked at, so the line is not
completed; `cd` is appended to it as its last part, without a separator and
without a new line number, and the payload differs from the one of the whole
lines `ab`, `cd`. -/
theorem empty_terminal_merges_lines :
    (importOne 3 "f" (.stream [⟨"ab", true⟩, ⟨"", false⟩, ⟨"cd", false⟩] .eof)).posted
      = ["[\nabcd\n]"]
    ∧ (importOne 3 "f" (.stream [⟨"ab", true⟩, ⟨"", false⟩, ⟨"cd", false⟩] .eof)).lineNo = 1
    ∧ (readLines 3 [⟨"ab", true⟩, ⟨"", false⟩] {}).isPartial = true
    ∧ (importOne 3 "f" (.stream (wholeReads ["ab", "cd"]) .eof)).posted = ["[\nab,\ncd\n]"]
    ∧ (importOne 3 "f" (.stream (wholeReads ["ab", "cd"]) .eof)).lineNo = 2 := by
  decide

/-- C8, evaluated at `B = 1` and the single line `{"a":1}`: `lineNo % 1` is never
`1`, so no opening bracket is written; the payload is `{"a":1}\n]`, which does
not begin with `[\n`. -/
theorem batch_one_lacks_opening_bracket :
    (importOne 1 "f" (.stream (wholeReads ["\x7b\"a\":1\x7d"]) .eof)).posted
      = ["\x7b\"a\":1\x7d\n]"]
    ∧ ∀ p ∈ (importOne 1 "f" (.stream (wholeReads ["\x7b\"a\":1\x7d"]) .eof)).posted,
        p.toList.take 2 ≠ "[\n".toList := by
  decide

/-! ## Lemmas on the scan loop -/

theorem scanFiles_append (fs gs : List String) (st : Finset String × List String) :
    scanFiles (fs ++ gs) st = scanFiles gs (scanFiles fs st) := by
  induction fs generalizing st with
  | nil => rfl
  | cons f fs ih => obtain ⟨T, q⟩ := st; simp [scanFiles, ih]

theorem scanFiles_fst (fs : List String) :
    ∀ (T : Finset String) (q : List String), (scanFiles fs (T, q)).1 = T ∪ fs.toFinset := by
  induction fs with
  | nil => intro T q; simp [scanFiles]
  | cons f fs ih =>
    intro T q
    simp only [scanFiles]
    by_cases h : f ∈ T
    · rw [if_pos h, ih]
      ext x
      simp only [Finset.mem_union, List.mem_toFinset, List.mem_cons]
      constructor
      · rintro (hx | hx)
        · exact Or.inl hx
        · exact Or.inr (Or.inr hx)
      · rintro (hx | rfl | hx)
        · exact Or.inl hx
        · exact Or.inl h
        · exact Or.inr hx
    · rw [if_neg h, ih]
      ext x
      simp only [Finset.mem_union, Finset.mem_insert, List.mem_toFinset, List.mem_cons]
      tauto

theorem scanFiles_snd (fs : List String) :
    ∀ (T : Finset String) (q : List String),
      (scanFiles fs (T, q)).2 = q ++ (scanFiles fs (T, [])).2 := by
  induction fs with
  | nil => intro T q; simp [scanFiles]
  | cons f fs ih =>
    intro T q
    simp only [scanFiles]
    by_cases h : f ∈ T
    · rw [if_pos h, if_pos h, ih]
    · rw [if_neg h, if_neg h, ih, ih (insert f T) ([] ++ [f])]
      simp

theorem scanFiles_cons_mem (f : String) (fs : List String) (T : Finset String) (h : f ∈ T) :
    (scanFiles (f :: fs) (T, [])).2 = (scanFiles fs (T, [])).2 := by
  simp [scanFiles, h]

theorem scanFiles_cons_not_mem (f : String) (fs : List String) (T : Finset String)
    (h : f ∉ T) :
    (scanFiles (f :: fs) (T, [])).2 = f :: (scanFiles fs (insert f T, [])).2 := by
  simp only [scanFiles, if_neg h]
  rw [scanFiles_snd]
  simp

theorem scanFiles_mem (fs : List String) :
    ∀ (T : Finset String) (x : String), x ∈ (scanFiles fs (T, [])).2 ↔ x ∈ fs ∧ x ∉ T := by
  induction fs with
  | nil => intro T x; simp [scanFiles]
  | cons f fs ih =>
    intro T x
    by_cases h : f ∈ T
    · rw [scanFiles_cons_mem f fs T h, ih]
      simp only [List.mem_cons]
      constructor
      · rintro ⟨h1, h2⟩; exact ⟨Or.inr h1, h2⟩
      · rintro ⟨rfl | h1, h2⟩
        · exact absurd h h2
        · exact ⟨h1, h2⟩
    · rw [scanFiles_cons_not_mem f fs T h, List.mem_cons, ih]
      simp only [List.mem_cons, Finset.mem_insert]
      constructor
      · rintro (rfl | ⟨h1, h2⟩)
        · exact ⟨Or.inl rfl, h⟩
        · exact ⟨Or.inr h1, fun hx => h2 (Or.inr hx)⟩
      · rintro ⟨rfl | h1, h2⟩
        · exact Or.inl rfl
        · by_cases hx : x = f
          · exact Or.inl hx
          · exact Or.inr ⟨h1, fun hh => hh.elim hx h2⟩

theorem scanFiles_nodup (fs : List String) :
    ∀ T : Finset String, (scanFiles fs (T, [])).2.Nodup := by
  induction fs with
  | nil => intro T; simp [scanFiles]
  | cons f fs ih =>
    intro T
    by_cases h : f ∈ T
    · rw [scanFiles_cons_mem f fs T h]; exact ih T
    · rw [scanFiles_cons_not_mem f fs T h, List.nodup_cons]
      refine ⟨?_, ih _⟩
      rw [scanFiles_mem]
      simp

theorem scanFiles_order (fs : List String) :
    ∀ T : Finset String,
      (scanFiles fs (T, [])).2.Pairwise (fun a b => fs.indexOf a < fs.indexOf b) := by
  induction fs with
  | nil => intro T; simp [scanFiles]
  | cons f fs ih =>
    intro T
    by_cases h : f ∈ T
    · rw [scanFiles_cons_mem f fs T h]
      refine (ih T).imp_of_mem ?_
      intro a b ha hb hab
      have ha2 : a ≠ f := fun e => ((scanFiles_mem fs T a).1 ha).2 (e ▸ h)
      have hb2 : b ≠ f := fun e => ((scanFiles_mem fs T b).1 hb).2 (e ▸ h)
      rw [List.indexOf_cons_ne _ (Ne.symm ha2), List.indexOf_cons_ne _ (Ne.symm hb2)]
      omega
    · rw [scanFiles_cons_not_mem f fs T h, List.pairwise_cons]
      constructor
      · intro b hb
        have hb2 : b ≠ f := fun e => by
          have := ((scanFiles_mem fs _ b).1 hb).2
          exact this (by simp [e])
        rw [List.indexOf_cons_self, List.indexOf_cons_ne _ (Ne.symm hb2)]
        omega
      · refine (ih _).imp_of_mem ?_
        intro a b ha hb hab
        have ha2 : a ≠ f := fun e => ((scanFiles_mem fs _ a).1 ha).2 (by simp [e])
        have hb2 : b ≠ f := fun e => ((scanFiles_mem fs _ b).1 hb).2 (by simp [e])
        rw [List.indexOf_cons_ne _ (Ne.symm ha2), List.indexOf_cons_ne _ (Ne.symm hb2)]
        omega

/-! ## Lemmas on the coordinator -/

theorem snoc_eq_append_cons {x y : Act} {log a b : List Act} (h : log ++ [x] = a ++ y :: b) :
    (b = [] ∧ log = a ∧ x = y) ∨ ∃ b2, b = b2 ++ [x] ∧ log = a ++ y :: b2 := by
  rcases List.eq_nil_or_concat b with rfl | ⟨b2, z, rfl⟩
  · left
    have := List.append_inj' h rfl
    exact ⟨rfl, this.1, by simpa using this.2⟩
  · right
    have h2 : log ++ [x] = (a ++ y :: b2) ++ [z] := by simpa using h
    have := List.append_inj' h2 rfl
    have hz : x = z := by simpa using this.2
    exact ⟨b2, by simp [hz], this.1⟩

theorem good_nil : Good ∅ [] := by
  constructor
  · intro f a b h; simp at h
  · intro f a b d h; simp at h

theorem good_push {T : Finset String} {log : List Act} (hg : Good T log) {f : String}
    (hf : f ∉ T) : Good (insert f T) (log ++ [Act.push f]) := by
  constructor
  · intro g a b h hb
    rcases snoc_eq_append_cons h with ⟨_, _, hx⟩ | ⟨b2, rfl, hlog⟩
    · injection hx with hx
      simp [hx]
    · have := hg.1 g a b2 hlog (fun hm => hb (by simp [hm]))
      simp [this]
  · intro g a b d h
    have h2 : log ++ [Act.push f] = (a ++ Act.push g :: b) ++ Act.push g :: d := by
      simpa using h
    rcases snoc_eq_append_cons h2 with ⟨_, hlog, hx⟩ | ⟨d2, rfl, hlog⟩
    · injection hx with hx
      subst hx
      by_contra hb
      exact hf (hg.1 f a b hlog hb)
    · exact hg.2 g a b d2 (by simpa using hlog)

theorem good_retire {T : Finset String} {log : List Act} (hg : Good T log) (f : String) :
    Good (T.erase f) (log ++ [Act.retire f]) := by
  constructor
  · intro g a b h hb
    rcases snoc_eq_append_cons h with ⟨_, _, hx⟩ | ⟨b2, rfl, hlog⟩
    · cases hx
    · have hne : g ≠ f := by
        rintro rfl
        exact hb (by simp)
      have := hg.1 g a b2 hlog (fun hm => hb (by simp [hm]))
      simp [this, hne]
  · intro g a b d h
    have h2 : log ++ [Act.retire f] = (a ++ Act.push g :: b) ++ Act.push g :: d := by
      simpa using h
    rcases snoc_eq_append_cons h2 with ⟨_, _, hx⟩ | ⟨d2, rfl, hlog⟩
    · cases hx
    · exact hg.2 g a b d2 (by simpa using hlog)

theorem good_scan (fs : List String) :
    ∀ (T : Finset String) (log : List Act), Good T log →
      Good (scanFiles fs (T, [])).1 (log ++ (scanFiles fs (T, [])).2.map Act.push) := by
  induction fs with
  | nil => intro T log hg; simpa [scanFiles] using hg
  | cons f fs ih =>
    intro T log hg
    by_cases h : f ∈ T
    · have := ih T log hg
      rw [scanFiles_cons_mem f fs T h]
      simpa [scanFiles, h] using this
    · have := ih (insert f T) (log ++ [Act.push f]) (good_push hg h)
      rw [scanFiles_cons_not_mem f fs T h]
      simpa [scanFiles, h, scanFiles_fst] using this

theorem good_step (c : Coord) (e : Event) (hg : Good c.toimp c.log) :
    Good (step c e).toimp (step c e).log := by
  cases e with
  | tick r =>
    simp only [step]
    split
    · exact hg
    · cases r with
      | failed => exact hg
      | files fs => exact good_scan fs c.toimp c.log hg
  | done f =>
    simp only [step]
    split
    · exact hg
    · exact good_retire hg f
  | quit =>
    simp only [step]
    split
    · exact hg
    · exact hg

theorem good_foldl (evs : List Event) :
    ∀ c : Coord, Good c.toimp c.log → Good (evs.foldl step c).toimp (evs.foldl step c).log := by
  induction evs with
  | nil => intro c hg; exact hg
  | cons e evs ih => intro c hg; exact ih _ (good_step c e hg)

theorem good_coordinate (evs : List Event) :
    Good (coordinate evs).toimp (coordinate evs).log :=
  good_foldl evs {} good_nil

theorem step_scan (c : Coord) (fs : List String) (ha : c.armed = true)
    (he : c.exited = false) :
    step c (.tick (.files fs)) =
      { c with toimp := c.toimp ∪ fs.toFinset,
               log := c.log ++ (scanFiles fs (c.toimp, [])).2.map Act.push } := by
  simp [step, ha, he, scanFiles_fst]

theorem scanFiles_count (fs : List String) (T : Finset String) (f : String) :
    ((scanFiles fs (T, [])).2.map Act.push).count (Act.push f)
      = if f ∈ fs ∧ f ∉ T then 1 else 0 := by
  have hinj : Function.Injective Act.push := fun a b h => by injection h
  rw [List.count_map_of_injective _ _ hinj, List.count_eq_of_nodup (scanFiles_nodup fs T)]
  simp only [scanFiles_mem]

/-- While no `done f` is received, `f` was sent on `todo` once if it is a key of
the map and never otherwise. -/
theorem count_step (f : String) (c : Coord) (e : Event) (he : e ≠ .done f)
    (hc : c.log.count (Act.push f) = if f ∈ c.toimp then 1 else 0) :
    (step c e).log.count (Act.push f) = if f ∈ (step c e).toimp then 1 else 0 := by
  cases e with
  | tick r =>
    by_cases hx : c.exited = true ∨ c.armed = false
    · have : step c (.tick r) = c := by
        rcases hx with hx | hx <;> simp [step, hx]
      rw [this]; exact hc
    · have ha : c.armed = true := by
        cases h : c.armed
        · exact absurd (Or.inr h) hx
        · rfl
      have hex : c.exited = false := by
        cases h : c.exited
        · rfl
        · exact absurd (Or.inl h) hx
      cases r with
      | failed =>
        have : step c (.tick .failed) = { c with armed := false } := by simp [step, ha, hex]
        rw [this]; exact hc
      | files fs =>
        rw [step_scan c fs ha hex]
        simp only [List.count_append, hc, scanFiles_count, Finset.mem_union, List.mem_toFinset]
        by_cases h1 : f ∈ c.toimp
        · simp [h1]
        · by_cases h2 : f ∈ fs
          · simp [h1, h2]
          · simp [h1, h2]
  | done g =>
    have hne : f ≠ g := fun h => he (by rw [h])
    simp only [step]
    split
    · exact hc
    · simp [List.count_append, hc, hne, Finset.mem_erase]
  | quit =>
    simp only [step]
    split
    · exact hc
    · exact hc

theorem count_foldl (f : String) (evs : List Event) :
    ∀ c : Coord, (∀ e ∈ evs, e ≠ .done f) →
      c.log.count (Act.push f) = (if f ∈ c.toimp then 1 else 0) →
      (evs.foldl step c).log.count (Act.push f)
        = if f ∈ (evs.foldl step c).toimp then 1 else 0 := by
  induction evs with
  | nil => intro c _ hc; exact hc
  | cons e evs ih =>
    intro c he hc
    exact ih _ (fun x hx => he x (by simp [hx])) (count_step f c e (he e (by simp)) hc)

theorem scans_foldl (f : String) (scans : List (List String)) :
    ∀ c : Coord, c.armed = true → c.exited = false → f ∈ c.toimp →
      f ∈ ((scans.map (fun fs => Event.tick (.files fs))).foldl step c).toimp := by
  induction scans with
  | nil => intro c _ _ h; exact h
  | cons fs scans ih =>
    intro c ha he h
    simp only [List.map_cons, List.foldl_cons]
    rw [step_scan c fs ha he]
    exact ih _ ha he (by simp [h])

/-- Once the timer is disarmed it stays so, and nothing more is sent on `todo`. -/
theorem disarmed_foldl (evs : List Event) :
    ∀ c : Coord, c.armed = false → (∀ f, Act.push f ∉ c.log) →
      (evs.foldl step c).armed = false ∧ ∀ f, Act.push f ∉ (evs.foldl step c).log := by
  induction evs with
  | nil => intro c ha hl; exact ⟨ha, hl⟩
  | cons e evs ih =>
    intro c ha hl
    simp only [List.foldl_cons]
    apply ih
    · cases e with
      | tick r => simp [step, ha]
      | done f => simp only [step]; split <;> simp [ha]
      | quit => simp only [step]; split <;> simp [ha]
    · intro f
      cases e with
      | tick r => simpa [step, ha] using hl f
      | done g =>
        simp only [step]
        split
        · exact hl f
        · simpa using hl f
      | quit =>
        simp only [step]
        split
        · exact hl f
        · exact hl f

/-! ## Claims on the coordinator -/

/-- C4: for every sequence of events of `coordinate` (scans that succeed with any
list of names, scans that fail, names received from `done`, quit) and every
filename `f`, between two sends of `f` on `todo` there is a receive of `f` from
`done`; when no `done f` is received `f` is sent at most once; and when `f` is in
each of one or more consecutive successful scans, with nothing received in
between, it is sent exactly once. -/
theorem idempotent_discovery (evs : List Event) (f : String) :
    (∀ a b d, (coordinate evs).log = a ++ Act.push f :: b ++ Act.push f :: d →
        Act.retire f ∈ b)
    ∧ ((∀ e ∈ evs, e ≠ Event.done f) → (coordinate evs).log.count (Act.push f) ≤ 1)
    ∧ (∀ scans : List (List String), scans ≠ [] → (∀ fs ∈ scans, f ∈ fs) →
        (coordinate (scans.map (fun fs => Event.tick (.files fs)))).log.count (Act.push f)
          = 1) := by
  refine ⟨fun a b d h => (good_coordinate evs).2 f a b d h, ?_, ?_⟩
  · intro he
    have := count_foldl f evs {} he (by simp)
    unfold coordinate
    rw [this]
    split <;> simp
  · intro scans hne hmem
    have hcnt := count_foldl f (scans.map (fun fs => Event.tick (.files fs))) {}
      (by intro e he; simp only [List.mem_map] at he; obtain ⟨fs, _, rfl⟩ := he; simp)
      (by simp)
    unfold coordinate
    rw [hcnt, if_pos]
    match scans, hne, hmem with
    | fs :: rest, _, hmem =>
      simp only [List.map_cons, List.foldl_cons]
      rw [step_scan {} fs rfl rfl]
      exact scans_foldl f rest _ rfl rfl (by simp [hmem fs (by simp)])

/-- C4 on two scans that both list `a`, a receive of `a` from `done` and a third
scan: `a` is sent twice, with the receive in between. -/
theorem idempotent_discovery_witness :
    (coordinate [.tick (.files ["a"]), .tick (.files ["a"]), .done "a",
        .tick (.files ["a"])]).log = [] ++ Act.push "a" :: [Act.retire "a"] ++ Act.push "a" :: []
    ∧ Act.retire "a" ∈ [Act.retire "a"]
    ∧ (coordinate ([["a"], ["a", "b"]].map (fun fs => Event.tick (.files fs)))).log.count
        (Act.push "a") = 1 :=
  ⟨by decide,
    (idempotent_discovery [.tick (.files ["a"]), .tick (.files ["a"]), .done "a",
        .tick (.files ["a"])] "a").1 [] [Act.retire "a"] [] (by decide),
    (idempotent_discovery [] "a").2.2 [["a"], ["a", "b"]] (by decide) (by decide)⟩

/-- The branch of lines 40-43, which `filepath.Glob` does not take for the
pattern `*.gz`: its `continue` skips `t1.Reset`, so a tick with a failed scan,
were one received, would leave the timer disarmed for good, while after a scan
that succeeds the timer is armed and the next tick scans. -/
theorem error_branch_skips_reset :
    (coordinate [.tick .failed]).armed = false
    ∧ (coordinate [.tick .failed]).exited = false
    ∧ (∀ evs : List Event, (coordinate (.tick .failed :: evs)).armed = false
        ∧ ∀ f, Act.push f ∉ (coordinate (.tick .failed :: evs)).log)
    ∧ (coordinate [.tick .failed, .tick (.files ["a.gz"])]).log = []
    ∧ (coordinate [.tick (.files []), .tick (.files ["a.gz"])]).log = [Act.push "a.gz"]
    ∧ (coordinate [.tick (.files [])]).armed = true := by
  refine ⟨by decide, by decide, ?_, by decide, by decide, by decide⟩
  intro evs
  exact disarmed_foldl evs (step {} (.tick .failed)) (by decide) (by intro f; simp [step])

theorem armed_step (c : Coord) (e : Event) (he : e.receivable = true)
    (h : c.exited = false → c.armed = true) :
    (step c e).exited = false → (step c e).armed = true := by
  cases e with
  | tick r =>
    cases r with
    | failed => simp [Event.receivable] at he
    | files fs =>
      simp only [step]
      split
      · exact h
      · intro _; rfl
  | done f =>
    simp only [step]
    split
    · exact h
    · exact h
  | quit =>
    simp only [step]
    split
    · exact h
    · intro hx; cases hx

theorem armed_foldl (evs : List Event) :
    ∀ c : Coord, (∀ e ∈ evs, e.receivable = true) → (c.exited = false → c.armed = true) →
      (evs.foldl step c).exited = false → (evs.foldl step c).armed = true := by
  induction evs with
  | nil => intro c _ h; exact h
  | cons e evs ih =>
    intro c hr h
    exact ih (step c e) (fun x hx => hr x (by simp [hx]))
      (armed_step c e (hr e (by simp)) h)

/-- C9: in every state that `coordinate` reaches from its start through events
it can receive (ticks with the list of names `filepath.Glob` returns, also the
empty or shortened list it returns when the directory cannot be read; names from
`done`; quit) and in which it has not received from `quit`, the timer is armed;
so a later tick performs the next scan, sending the new names of its list and
arming the timer again. -/
theorem scan_loop_continues (evs : List Event) (hrec : ∀ e ∈ evs, e.receivable = true)
    (hex : (coordinate evs).exited = false) :
    (coordinate evs).armed = true
    ∧ (∀ fs : List String,
        step (coordinate evs) (.tick (.files fs)) =
          { coordinate evs with
              toimp := (coordinate evs).toimp ∪ fs.toFinset,
              log := (coordinate evs).log
                ++ (scanFiles fs ((coordinate evs).toimp, [])).2.map Act.push }
        ∧ (step (coordinate evs) (.tick (.files fs))).armed = true
        ∧ (step (coordinate evs) (.tick (.files fs))).exited = false) := by
  have ha : (coordinate evs).armed = true := armed_foldl evs {} hrec (fun _ => rfl) hex
  refine ⟨ha, fun fs => ?_⟩
  rw [step_scan (coordinate evs) fs ha hex]
  exact ⟨rfl, ha, hex⟩

/-- C9 after a scan that finds `a.gz`, a scan that returns no name (as when the
directory cannot be read) and a receive from `done`: the timer is armed, and the
next tick scans and sends `b.gz`. -/
theorem scan_loop_continues_witness :
    (∀ e ∈ [Event.tick (.files ["a.gz"]), .tick (.files []), .done "a.gz"],
        e.receivable = true)
    ∧ (coordinate [.tick (.files ["a.gz"]), .tick (.files []), .done "a.gz"]).exited = false
    ∧ (coordinate [.tick (.files ["a.gz"]), .tick (.files []), .done "a.gz"]).armed = true
    ∧ (coordinate [.tick (.files ["a.gz"]), .tick (.files []), .done "a.gz",
        .tick (.files ["b.gz"])]).log
        = [Act.push "a.gz", Act.retire "a.gz", Act.push "b.gz"] :=
  ⟨by decide, by decide,
    (scan_loop_continues [.tick (.files ["a.gz"]), .tick (.files []), .done "a.gz"]
      (by decide) (by decide)).1,
    by decide⟩

/-- C10: for every map `P` and every list `fs` returned by a successful scan, the
names sent on `todo` are the names of `fs` that are not keys of `P`, each once,
in the order of their first occurrence in `fs`; the map afterwards has the keys
of `P` and the names of `fs`; at every point of the loop the names sent so far
are keys of the map, and a name that is not yet a key is made one in the
iteration that sends it; the `select` case of the timer does exactly this. -/
theorem scan_step (P : Finset String) (fs : List String) :
    (scanFiles fs (P, [])).2.Nodup
    ∧ (∀ f, f ∈ (scanFiles fs (P, [])).2 ↔ f ∈ fs ∧ f ∉ P)
    ∧ (scanFiles fs (P, [])).2.Pairwise (fun a b => fs.indexOf a < fs.indexOf b)
    ∧ (scanFiles fs (P, [])).1 = P ∪ fs.toFinset
    ∧ (∀ pre suf, fs = pre ++ suf →
        ∀ f ∈ (scanFiles pre (P, [])).2, f ∈ (scanFiles pre (P, [])).1)
    ∧ (∀ pre f suf, fs = pre ++ f :: suf → f ∉ (scanFiles pre (P, [])).1 →
        (scanFiles (pre ++ [f]) (P, [])).2 = (scanFiles pre (P, [])).2 ++ [f]
        ∧ f ∈ (scanFiles (pre ++ [f]) (P, [])).1)
    ∧ (∀ c : Coord, c.toimp = P → c.armed = true → c.exited = false →
        (step c (.tick (.files fs))).log = c.log ++ (scanFiles fs (P, [])).2.map Act.push
        ∧ (step c (.tick (.files fs))).toimp = P ∪ fs.toFinset) := by
  refine ⟨scanFiles_nodup fs P, scanFiles_mem fs P, scanFiles_order fs P,
    scanFiles_fst fs P [], ?_, ?_, ?_⟩
  · intro pre suf _ f hf
    rw [scanFiles_fst]
    have := (scanFiles_mem pre P f).1 hf
    simp [this.1]
  · intro pre f suf _ hf
    rw [scanFiles_append]
    rcases h : scanFiles pre (P, []) with ⟨T, q⟩
    rw [h] at hf
    simp only at hf
    simp [scanFiles, hf]
  · intro c hP ha he
    subst hP
    rw [step_scan c fs ha he]
    exact ⟨rfl, rfl⟩

/-- C10 on the map with key `b` and the scan `a`, `b`, `a`, `c`: `a` and `c` are
sent, in this order. -/
theorem scan_step_witness :
    (scanFiles ["a", "b", "a", "c"] ({"b"}, [])).2 = ["a", "c"]
    ∧ "a" ∈ (scanFiles ([] ++ ["a"]) ({"b"}, [])).1
    ∧ (scanFiles ["a", "b", "a", "c"] ({"b"}, [])).2.Nodup :=
  ⟨by decide,
    ((scan_step {"b"} ["a", "b", "a", "c"]).2.2.2.2.2.1 [] "a" ["b", "a", "c"] rfl
      (by decide)).2,
    (scan_step {"b"} ["a", "b", "a", "c"]).1⟩

/-! ## Completion, read errors and zero-length reads -/

theorem dones_foldl (gs : List String) :
    ∀ c : Coord, c.exited = false →
      (gs.map Event.done).foldl step c =
        { c with toimp := gs.foldl (fun T g => T.erase g) c.toimp,
                 log := c.log ++ gs.map Act.retire } := by
  induction gs with
  | nil => intro c _; simp
  | cons g gs ih =>
    intro c he
    simp only [List.map_cons, List.foldl_cons]
    have hs : step c (.done g) =
        { c with toimp := c.toimp.erase g, log := c.log ++ [Act.retire g] } := by
      simp [step, he]
    rw [hs, ih { c with toimp := c.toimp.erase g, log := c.log ++ [Act.retire g] } he]
    simp

theorem erase_foldl_not_mem (gs : List String) :
    ∀ (T : Finset String) (f : String), f ∉ T → f ∉ gs.foldl (fun T g => T.erase g) T := by
  induction gs with
  | nil => intro T f h; exact h
  | cons g gs ih =>
    intro T f h
    exact ih _ f (fun hm => h (Finset.mem_of_mem_erase hm))

/-- C11: when `coordinate`, not yet returned, receives `f` from `done`, the map
afterwards is the map before without the key `f`: `f` is no key, every other
name is a key exactly when it was one, nothing is sent on `todo` (the receive is
the only channel operation added) and the timer is untouched; and with the timer
armed, the next scan that succeeds with a list containing `f`, whatever other
names are received from `done` before it, sends `f` on `todo` exactly once. -/
theorem completion_retires (c : Coord) (f : String) (he : c.exited = false) :
    (step c (.done f)).toimp = c.toimp.erase f
    ∧ f ∉ (step c (.done f)).toimp
    ∧ (∀ g, g ≠ f → (g ∈ (step c (.done f)).toimp ↔ g ∈ c.toimp))
    ∧ (step c (.done f)).log = c.log ++ [Act.retire f]
    ∧ (step c (.done f)).armed = c.armed
    ∧ (step c (.done f)).exited = false
    ∧ (∀ (gs fs : List String), c.armed = true → f ∈ fs →
        ∃ sent : List String,
          (step ((gs.map Event.done).foldl step (step c (.done f))) (.tick (.files fs))).log
            = c.log ++ [Act.retire f] ++ gs.map Act.retire ++ sent.map Act.push
          ∧ sent.count f = 1
          ∧ f ∈ (step ((gs.map Event.done).foldl step (step c (.done f)))
                (.tick (.files fs))).toimp) := by
  have hs : step c (.done f) =
      { c with toimp := c.toimp.erase f, log := c.log ++ [Act.retire f] } := by
    simp [step, he]
  rw [hs]
  refine ⟨rfl, by simp, ?_, rfl, rfl, he, ?_⟩
  · intro g hg
    simp [Finset.mem_erase, hg]
  · intro gs fs ha hf
    rw [dones_foldl gs { c with toimp := c.toimp.erase f, log := c.log ++ [Act.retire f] } he,
      step_scan { c with toimp := gs.foldl (fun T g => T.erase g) (c.toimp.erase f),
                         log := c.log ++ [Act.retire f] ++ gs.map Act.retire } fs ha he]
    refine ⟨_, rfl, ?_, by simp [hf]⟩
    have hnot : f ∉ gs.foldl (fun T g => T.erase g) (c.toimp.erase f) :=
      erase_foldl_not_mem gs _ f (by simp)
    rw [List.count_eq_of_nodup (scanFiles_nodup fs _), if_pos]
    exact (scanFiles_mem fs _ f).2 ⟨hf, hnot⟩

/-- C11 after a scan that sent `a` and `b`: receiving `a` from `done` leaves the
key `b`, and the next scan listing `a` sends `a` again. -/
theorem completion_retires_witness :
    (coordinate [.tick (.files ["a", "b"])]).exited = false
    ∧ (step (coordinate [.tick (.files ["a", "b"])]) (.done "a")).toimp
        = (coordinate [.tick (.files ["a", "b"])]).toimp.erase "a"
    ∧ (coordinate [.tick (.files ["a", "b"]), .done "a", .tick (.files ["b", "a"])]).log
        = [Act.push "a", Act.push "b", Act.retire "a", Act.push "a"] :=
  ⟨by decide,
    (completion_retires (coordinate [.tick (.files ["a", "b"])]) "a" (by decide)).1,
    by decide⟩

/-- C16: for a batch size `B ≥ 1` and reads `rs` followed by a read error other
than `io.EOF`, `importOne` stops in the state reached after `rs`: the payloads
are those posted while `rs` was processed, which are the payloads of `rs`
followed by `io.EOF` without the flush made at `io.EOF`; the bytes left in the
buffer are not posted, and nothing is sent on `done`.  The worker goroutine adds
exactly these payloads, and no send on `done`, to what it did before. -/
theorem read_error_abandons (B : Nat) (_hB : 1 ≤ B) (name : String) (rs : List Read) :
    importOne B name (.stream rs .failed) = readLines B rs {}
    ∧ (importOne B name (.stream rs .failed)).done = []
    ∧ (importOne B name (.stream rs .eof)).posted
        = (importOne B name (.stream rs .failed)).posted
          ++ (if (readLines B rs {}).lineNo % B > 0 then [(readLines B rs {}).buf ++ "\n]"]
              else [])
    ∧ (importOne B name (.stream rs .failed)).buf = (readLines B rs {}).buf
    ∧ (∀ w : Worker, w.exited = false →
        (workerStep B w (.todo name (.stream rs .failed))).posted
          = w.posted ++ (readLines B rs {}).posted
        ∧ (workerStep B w (.todo name (.stream rs .failed))).done = w.done) := by
  refine ⟨rfl, importOne_done_failed B name rs, ?_, rfl, ?_⟩
  · simp only [importOne, onEnd]
    split <;> simp [postToOpenTSDB]
  · intro w hw
    simp [workerStep, hw, importOne, onEnd, readLines_done]

/-- C16 at `B = 2`: three whole lines and then a read error give the payload of
the first two lines only; the third line stays in the buffer and `done` gets
nothing. -/
theorem read_error_abandons_witness :
    1 ≤ 2
    ∧ importOne 2 "f" (.stream (wholeReads ["a", "b", "c"]) .failed)
        = { buf := "[\nc", lineNo := 3, isPartial := false, posted := ["[\nab\n]"], done := [] } :=
  ⟨by decide,
    (read_error_abandons 2 (by decide) "f" (wholeReads ["a", "b", "c"])).1.trans (by decide)⟩

theorem onRead_empty (B : Nat) (s : State) (r : Read) (hr : r.line.length = 0) :
    onRead B s r = s := by
  simp [onRead, hr]

/-- C17: for a batch size `B ≥ 1`, a read of zero length with `err == nil`, with
either value of `isPrefix`, leaves the whole state of the loop as it is (line
count, `isPartial`, buffer, payloads posted, sends on `done`); so a read sequence
with such a read inserted at any position, also inside a fragmented line, ends
in the same state as the sequence without it, whether it ends with `io.EOF` or
with a read error. -/
theorem empty_read_noop (B : Nat) (_hB : 1 ≤ B) (name : String) (pre post : List Read)
    (r : Read) (hr : r.line.length = 0) (fin : ReadEnd) :
    (∀ s : State, onRead B s r = s)
    ∧ (∀ s : State, readLines B (pre ++ r :: post) s = readLines B (pre ++ post) s)
    ∧ importOne B name (.stream (pre ++ r :: post) fin)
        = importOne B name (.stream (pre ++ post) fin) := by
  have h1 : ∀ s : State, readLines B (pre ++ r :: post) s = readLines B (pre ++ post) s := by
    intro s
    simp only [readLines_append, readLines, onRead_empty B _ r hr]
  exact ⟨fun s => onRead_empty B s r hr, h1, by simp only [importOne, h1]⟩

/-- C17 at `B = 3`: a zero-length read between the fragments `ab` and `cd` of a
line changes nothing. -/
theorem empty_read_noop_witness :
    1 ≤ 3 ∧ (Read.mk "" true).line.length = 0
    ∧ importOne 3 "f" (.stream ([⟨"ab", true⟩] ++ ⟨"", true⟩ :: [⟨"cd", false⟩]) .eof)
        = importOne 3 "f" (.stream ([⟨"ab", true⟩] ++ [⟨"cd", false⟩]) .eof) :=
  ⟨by decide, by decide,
    (empty_read_noop 3 (by decide) "f" [⟨"ab", true⟩] [⟨"cd", false⟩] ⟨"", true⟩ (by decide)
      .eof).2.2⟩

/-! ## Lemmas on the worker with outcomes -/

theorem closeLineT_st (B : Nat) (outs : Nat → PostOutcome) (t : Traced) :
    (closeLineT B outs t).st = closeLine B t.st := by
  unfold closeLineT closeLine
  split <;> rfl

theorem onReadT_st (B : Nat) (outs : Nat → PostOutcome) (t : Traced) (r : Read) :
    (onReadT B outs t r).st = onRead B t.st r := by
  unfold onReadT onRead
  split
  · rfl
  · split
    · rfl
    · split
      · simp [closeLineT_st]
      · split
        · rfl
        · split
          · simp [closeLineT_st]
          · rfl

theorem readLinesT_st (B : Nat) (outs : Nat → PostOutcome) (rs : List Read) :
    ∀ t : Traced, (readLinesT B outs rs t).st = readLines B rs t.st := by
  induction rs with
  | nil => intro t; rfl
  | cons r rs ih => intro t; simp only [readLinesT, readLines, ih, onReadT_st]

theorem onEndT_st (B : Nat) (outs : Nat → PostOutcome) (name : String) (t : Traced)
    (fin : ReadEnd) : (onEndT B outs name t fin).st = onEnd B name t.st fin := by
  cases fin with
  | failed => rfl
  | eof =>
    simp only [onEndT, onEnd]
    split <;> rfl

theorem importOneT_st (B : Nat) (outs : Nat → PostOutcome) (name : String) (file : FileInput) :
    (importOneT B outs name file).st = importOne B name file := by
  cases file with
  | openFailed => rfl
  | gzipFailed => rfl
  | stream reads fin => simp only [importOneT, importOne, onEndT_st, readLinesT_st]

theorem payloadsOf_append (a b : List Effect) :
    payloadsOf (a ++ b) = payloadsOf a ++ payloadsOf b := by
  induction a with
  | nil => rfl
  | cons e a ih => cases e <;> simp [payloadsOf, ih]

theorem sendsOf_append (a b : List Effect) : sendsOf (a ++ b) = sendsOf a ++ sendsOf b := by
  induction a with
  | nil => rfl
  | cons e a ih => cases e <;> simp [sendsOf, ih]

theorem closeLineT_agrees (B : Nat) (outs : Nat → PostOutcome) (t : Traced) (h : t.Agrees) :
    (closeLineT B outs t).Agrees := by
  unfold closeLineT
  split
  · exact ⟨by simp [postToOpenTSDBT, payloadsOf_append, payloadsOf, h.1],
      by simp [postToOpenTSDBT, sendsOf_append, sendsOf, h.2]⟩
  · exact h

theorem agrees_of_st {t u : Traced} (h : t.Agrees) (ht : u.trace = t.trace)
    (hp : u.st.posted = t.st.posted) (hd : u.st.done = t.st.done) : u.Agrees := by
  unfold Traced.Agrees at *
  rw [ht, hp, hd]
  exact h

theorem onReadT_agrees (B : Nat) (outs : Nat → PostOutcome) (t : Traced) (r : Read)
    (h : t.Agrees) : (onReadT B outs t r).Agrees := by
  unfold onReadT
  split
  · exact h
  · split
    · exact agrees_of_st h rfl (by simp [openLine_eq]) (by simp [openLine_eq])
    · split
      · have h1 : Traced.Agrees { t with st := { t.st with buf := t.st.buf ++ r.line } } :=
          agrees_of_st h rfl rfl rfl
        exact agrees_of_st (closeLineT_agrees B outs _ h1) rfl rfl rfl
      · split
        · exact agrees_of_st h rfl rfl rfl
        · split
          · have h1 : Traced.Agrees { t with st :=
                { openLine B { t.st with lineNo := t.st.lineNo + 1 } with
                  buf := (openLine B { t.st with lineNo := t.st.lineNo + 1 }).buf ++ r.line } } :=
              agrees_of_st h rfl (by simp [openLine_eq]) (by simp [openLine_eq])
            exact closeLineT_agrees B outs _ h1
          · exact h

theorem readLinesT_agrees (B : Nat) (outs : Nat → PostOutcome) (rs : List Read) :
    ∀ t : Traced, t.Agrees → (readLinesT B outs rs t).Agrees := by
  induction rs with
  | nil => intro t h; exact h
  | cons r rs ih => intro t h; exact ih _ (onReadT_agrees B outs t r h)

theorem onEndT_agrees (B : Nat) (outs : Nat → PostOutcome) (name : String) (t : Traced)
    (fin : ReadEnd) (h : t.Agrees) : (onEndT B outs name t fin).Agrees := by
  cases fin with
  | failed => exact h
  | eof =>
    simp only [onEndT]
    split
    · exact ⟨by simp [postToOpenTSDBT, payloadsOf_append, payloadsOf, h.1],
        by simp [postToOpenTSDBT, sendsOf_append, sendsOf, h.2]⟩
    · exact ⟨by simp [payloadsOf_append, payloadsOf, h.1],
        by simp [sendsOf_append, sendsOf, h.2]⟩

theorem importOneT_agrees (B : Nat) (outs : Nat → PostOutcome) (name : String)
    (file : FileInput) : (importOneT B outs name file).Agrees := by
  have h0 : ({} : Traced).Agrees := ⟨rfl, rfl⟩
  cases file with
  | openFailed => exact h0
  | gzipFailed => exact h0
  | stream reads fin =>
    exact onEndT_agrees B outs name _ fin (readLinesT_agrees B outs reads {} h0)

theorem closeLineT_ordered (B : Nat) (outs : Nat → PostOutcome) (t : Traced)
    (h : t.Ordered) : (closeLineT B outs t).Ordered := by
  unfold closeLineT
  split
  · exact ⟨by simp [postToOpenTSDBT, Effect.erase, h.1], by simp [postToOpenTSDBT, h.2]⟩
  · exact h

theorem ordered_of_st {t u : Traced} (h : t.Ordered) (ht : u.trace = t.trace)
    (hp : u.st.posted = t.st.posted) (hd : u.st.done = t.st.done) : u.Ordered := by
  unfold Traced.Ordered at *
  rw [ht, hp, hd]
  exact h

theorem onReadT_ordered (B : Nat) (outs : Nat → PostOutcome) (t : Traced) (r : Read)
    (h : t.Ordered) : (onReadT B outs t r).Ordered := by
  unfold onReadT
  split
  · exact h
  · split
    · exact ordered_of_st h rfl (by simp [openLine_eq]) (by simp [openLine_eq])
    · split
      · have h1 : Traced.Ordered { t with st := { t.st with buf := t.st.buf ++ r.line } } :=
          ordered_of_st h rfl rfl rfl
        exact ordered_of_st (closeLineT_ordered B outs _ h1) rfl rfl rfl
      · split
        · exact ordered_of_st h rfl rfl rfl
        · split
          · have h1 : Traced.Ordered { t with st :=
                { openLine B { t.st with lineNo := t.st.lineNo + 1 } with
                  buf := (openLine B { t.st with lineNo := t.st.lineNo + 1 }).buf ++ r.line } } :=
              ordered_of_st h rfl (by simp [openLine_eq]) (by simp [openLine_eq])
            exact closeLineT_ordered B outs _ h1
          · exact h

theorem readLinesT_ordered (B : Nat) (outs : Nat → PostOutcome) (rs : List Read) :
    ∀ t : Traced, t.Ordered → (readLinesT B outs rs t).Ordered := by
  induction rs with
  | nil => intro t h; exact h
  | cons r rs ih => intro t h; exact ih _ (onReadT_ordered B outs t r h)

/-- The effects of one file, without what was logged: the POSTs of the payloads
in order, then the sends on `done`. -/
theorem importOneT_trace (B : Nat) (outs : Nat → PostOutcome) (name : String)
    (file : FileInput) :
    (importOneT B outs name file).trace.map Effect.erase
      = (importOne B name file).posted.map (fun p => Effect.post p false)
        ++ (importOne B name file).done.map Effect.send := by
  rw [← importOneT_st B outs name file]
  have h0 : ({} : Traced).Ordered := ⟨rfl, rfl⟩
  cases file with
  | openFailed => rfl
  | gzipFailed => rfl
  | stream reads fin =>
    have h := readLinesT_ordered B outs reads {} h0
    cases fin with
    | failed => simp [importOneT, onEndT, h.1, h.2]
    | eof =>
      simp only [importOneT, onEndT]
      split
      · simp [postToOpenTSDBT, Effect.erase, h.1, h.2]
      · simp [Effect.erase, h.1, h.2]

/-! ## Claims on delivery outcomes and on the Batch Assembler -/

/-- C12: for a batch size `B ≥ 1`, any file and any two assignments `outs1`,
`outs2` of outcomes (transport error, status 200, other status) to the POSTs,
`importOneT` ends in the same state (payloads attempted, sends on `done`, buffer,
line count) and has the same effects in the same order, up to what is logged;
these are the payloads and the sends of `importOne`, which takes no outcome; and
after every call of `postToOpenTSDB` the buffer is empty, whatever the outcome. -/
theorem outcomes_do_not_influence (B : Nat) (_hB : 1 ≤ B) (name : String) (file : FileInput)
    (outs1 outs2 : Nat → PostOutcome) :
    (importOneT B outs1 name file).st = (importOneT B outs2 name file).st
    ∧ (importOneT B outs1 name file).trace.map Effect.erase
        = (importOneT B outs2 name file).trace.map Effect.erase
    ∧ payloadsOf (importOneT B outs1 name file).trace = (importOne B name file).posted
    ∧ sendsOf (importOneT B outs1 name file).trace = (importOne B name file).done
    ∧ (∀ t : Traced, (postToOpenTSDBT outs1 t).st.buf = ""
        ∧ (postToOpenTSDBT outs1 t).st.posted = t.st.posted ++ [t.st.buf]) := by
  have ha := importOneT_agrees B outs1 name file
  refine ⟨by rw [importOneT_st, importOneT_st], by rw [importOneT_trace, importOneT_trace],
    ?_, ?_, fun t => ⟨rfl, rfl⟩⟩
  · rw [ha.1, importOneT_st]
  · rw [ha.2, importOneT_st]

/-- C12 at `B = 2` on a file of five lines, three batches, whose second POST gets
status 500: the three payloads are attempted, the second is logged as failed, and
the filename is sent on `done`, as when every POST gets status 200. -/
theorem outcomes_do_not_influence_witness :
    1 ≤ 2
    ∧ (importOneT 2 (fun k => if k = 1 then .status 500 else .status 200) "f"
        (.stream (wholeReads ["a", "b", "c", "d", "e"]) .eof)).trace
      = [.post "[\nab\n]" false, .post "[\ncd\n]" true, .post "[\ne\n]" false, .send "f"]
    ∧ (importOneT 2 (fun k => if k = 1 then .status 500 else .status 200) "f"
        (.stream (wholeReads ["a", "b", "c", "d", "e"]) .eof)).st
      = (importOneT 2 (fun _ => .status 200) "f"
        (.stream (wholeReads ["a", "b", "c", "d", "e"]) .eof)).st :=
  ⟨by decide, by decide,
    (outcomes_do_not_influence 2 (by decide) "f"
      (.stream (wholeReads ["a", "b", "c", "d", "e"]) .eof)
      (fun k => if k = 1 then .status 500 else .status 200) (fun _ => .status 200)).1⟩

theorem cat_append (a b : List String) : cat (a ++ b) = cat a ++ cat b := by
  induction a with
  | nil => simp [cat]
  | cons x a ih => simp [cat, ih, String.append_assoc]

theorem onRead_whole_rule (B : Nat) (s : State) (l : String) (hl : l.length ≠ 0)
    (hp : s.isPartial = false) :
    onRead B s { line := l, isPrefix := false } =
      if (s.lineNo + 1) % B = 0 then
        { s with lineNo := s.lineNo + 1, buf := "",
                 posted := s.posted ++ [s.buf ++ assemblerLine B (s.lineNo + 1) l] }
      else
        { s with lineNo := s.lineNo + 1, buf := s.buf ++ assemblerLine B (s.lineNo + 1) l } := by
  rw [onRead_whole B s l hl hp]
  unfold closeLine
  by_cases h : (s.lineNo + 1) % B = 0
  · simp [h, postToOpenTSDB, piece, assemblerLine, String.append_assoc]
  · simp [h, piece, assemblerLine, String.append_assoc]

/-- Payloads posted and buffer, put end to end, grow by the pieces of the
specification. -/
theorem readLines_whole_written (B : Nat) (lines : List String) :
    ∀ s : State, (∀ l ∈ lines, l.length ≠ 0) → s.isPartial = false →
      cat (readLines B (wholeReads lines) s).posted ++ (readLines B (wholeReads lines) s).buf
        = cat s.posted ++ (s.buf ++ assemblerBytes B s.lineNo lines) := by
  induction lines with
  | nil => intro s _ _; simp [wholeReads, readLines, assemblerBytes]
  | cons l lines ih =>
    intro s hne hp
    have hl : l.length ≠ 0 := hne l (by simp)
    have hp2 := onRead_isPartial_whole B s l hp
    have h := ih (onRead B s { line := l, isPrefix := false })
      (fun x hx => hne x (by simp [hx])) hp2
    simp only [wholeReads, List.map_cons, readLines] at h ⊢
    rw [h, onRead_whole_rule B s l hl hp]
    by_cases hm : (s.lineNo + 1) % B = 0
    · simp [hm, cat_append, cat, assemblerBytes, String.append_assoc]
    · simp [hm, assemblerBytes, String.append_assoc]

/-- C14: for a batch size `B ≥ 1`, the loop treats a non-empty whole line with
running count `n` by the Batch Assembler rules of the specification: it appends
to the buffer `[\n` exactly when `n mod B = 1`, `,\n` exactly when `n mod B > 1`,
then the line verbatim, and exactly when `n mod B = 0` it appends `\n]`, hands
the buffer to `postToOpenTSDB` and resets it; for a file of non-empty whole
lines the payloads put end to end are these pieces in source order, followed by
one `\n]` when the line count is not a multiple of `B`. -/
theorem assembler_rules (B : Nat) (hB : 1 ≤ B) (name : String) (lines : List String)
    (hne : ∀ l ∈ lines, l.length ≠ 0) :
    (∀ (s : State) (l : String), l.length ≠ 0 → s.isPartial = false →
      onRead B s { line := l, isPrefix := false } =
        if (s.lineNo + 1) % B = 0 then
          { s with lineNo := s.lineNo + 1, buf := "",
                   posted := s.posted ++ [s.buf ++ assemblerLine B (s.lineNo + 1) l] }
        else
          { s with lineNo := s.lineNo + 1,
                   buf := s.buf ++ assemblerLine B (s.lineNo + 1) l })
    ∧ cat (importOne B name (.stream (wholeReads lines) .eof)).posted
        = assemblerBytes B 0 lines ++ (if lines.length % B = 0 then "" else "\n]") := by
  refine ⟨fun s l hl hp => onRead_whole_rule B s l hl hp, ?_⟩
  have hw := readLines_whole_written B lines {} hne rfl
  have hall := importOne_whole B hB name lines hne
  have hno : (onEnd B name (readLines B (wholeReads lines) {}) .eof).lineNo
      = (readLines B (wholeReads lines) {}).lineNo := by
    simp only [onEnd]
    split <;> rfl
  have hn : (readLines B (wholeReads lines) {}).lineNo = lines.length := by
    rw [← hno]
    have := congrArg State.lineNo hall
    simpa [importOne] using this
  simp only [cat, String.empty_append] at hw
  by_cases hm : lines.length % B = 0
  · have hb : (readLines B (wholeReads lines) {}).buf = "" := by
      have := congrArg State.buf hall
      simpa [importOne, onEnd, hn, hm] using this
    have hp : (importOne B name (.stream (wholeReads lines) .eof)).posted
        = (readLines B (wholeReads lines) {}).posted := by
      simp [importOne, onEnd, hn, hm]
    rw [hp, if_pos hm, String.append_empty, ← hw, hb, String.append_empty]
  · have hpos : lines.length % B > 0 := Nat.pos_of_ne_zero hm
    have hp : (importOne B name (.stream (wholeReads lines) .eof)).posted
        = (readLines B (wholeReads lines) {}).posted
          ++ [(readLines B (wholeReads lines) {}).buf ++ "\n]"] := by
      simp [importOne, onEnd, hn, hpos, postToOpenTSDB]
    rw [hp, if_neg hm, cat_append, ← hw]
    simp [cat, String.append_assoc]

/-- C14 at `B = 2` and three lines: the pieces are `[\na`, `b\n]`, `[\nc`, and
the last payload is closed at end-of-stream. -/
theorem assembler_rules_witness :
    1 ≤ 2 ∧ (∀ l ∈ ["a", "b", "c"], l.length ≠ 0)
    ∧ cat (importOne 2 "f" (.stream (wholeReads ["a", "b", "c"]) .eof)).posted
        = assemblerBytes 2 0 ["a", "b", "c"] ++ (if ["a", "b", "c"].length % 2 = 0 then "" else "\n]")
    ∧ assemblerBytes 2 0 ["a", "b", "c"] = "[\nab\n][\nc" :=
  ⟨by decide, by decide,
    (assembler_rules 2 (by decide) "f" ["a", "b", "c"] (by decide)).2, by decide⟩

/-! ## The partial final batch -/

theorem intercalate_go (sep : String) (c : List String) :
    ∀ acc : String, String.intercalate.go acc sep c = acc ++ cat (c.map (fun l => sep ++ l)) := by
  induction c with
  | nil => intro acc; simp [String.intercalate.go, cat]
  | cons a c ih =>
    intro acc
    simp [String.intercalate.go, ih, cat, String.append_assoc]

theorem pieces_mid (B : Nat) (c : List String) :
    ∀ j : Nat, 1 ≤ j → j + c.length < B →
      pieces B j c = cat (c.map (fun l => ",\n" ++ l)) := by
  induction c with
  | nil => intro j _ _; simp [pieces, cat]
  | cons l c ih =>
    intro j hj hlt
    simp only [List.length_cons] at hlt
    have hm : (j + 1) % B = j + 1 := Nat.mod_eq_of_lt (by omega)
    have h1 : ¬ (j + 1 = 1) := by omega
    have h2 : 1 < j + 1 := by omega
    simp only [pieces, piece, hm, List.map_cons, cat]
    rw [ih (j + 1) (by omega) (by omega)]
    simp [h1, h2]

/-- A batch with fewer than `B` lines is laid out as `[\n`, then its lines
separated by `,\n`. -/
theorem pieces_short (B : Nat) (c : List String) (hc : c ≠ []) (hlt : c.length < B) :
    pieces B 0 c = "[\n" ++ String.intercalate ",\n" c := by
  match c, hc with
  | a :: c, _ =>
    simp only [List.length_cons] at hlt
    have hm : (0 + 1) % B = 1 := Nat.mod_eq_of_lt (by omega)
    simp only [pieces, piece, hm, String.intercalate, intercalate_go]
    rw [pieces_mid B c (0 + 1) (by omega) (by omega)]
    simp [String.append_assoc]

theorem ceil_of_mod_pos {B n : Nat} (hB : 0 < B) (h : n % B > 0) :
    (n + B - 1) / B = n / B + 1 := by
  have h1 : n + B - 1 = (n % B - 1) + B * (n / B + 1) := by
    have := Nat.div_add_mod n B
    rw [Nat.mul_add]
    omega
  have h2 : n % B < B := Nat.mod_lt n hB
  rw [h1, Nat.add_mul_div_left _ _ hB, Nat.div_eq_of_lt (by omega)]
  omega

theorem batches_getLast (B : Nat) (hB : 0 < B) (lines : List String)
    (hr : lines.length % B > 0) :
    (batches B lines).getLast?
      = some ("[\n" ++ String.intercalate ",\n"
          (lines.drop (lines.length - lines.length % B)) ++ "\n]") := by
  have hq : lines.length / B * B = lines.length - lines.length % B := by
    have := Nat.div_add_mod lines.length B
    rw [Nat.mul_comm] at this
    omega
  have hlen : (lines.drop (lines.length - lines.length % B)).length = lines.length % B := by
    rw [List.length_drop]
    have := Nat.mod_le lines.length B
    omega
  have hlt : lines.length % B < B := Nat.mod_lt _ hB
  have hch : chunk B (lines.length / B) lines
      = lines.drop (lines.length - lines.length % B) := by
    rw [chunk, hq, List.take_of_length_le (by omega)]
  have hne : lines.drop (lines.length - lines.length % B) ≠ [] := by
    intro h
    rw [h] at hlen
    simp at hlen
    omega
  simp only [batches, chunks, ceil_of_mod_pos hB hr, List.range_succ, List.map_append,
    List.map_cons, List.map_nil, List.getLast?_concat, hch, batchBytes]
  rw [pieces_short B _ hne (by omega)]

/-- C15: for a batch size `B ≥ 1` and `n` non-empty whole lines followed by
end-of-stream with `r = n mod B > 0`, the last payload handed to
`postToOpenTSDB` is `[\n`, the last `r` lines joined by `,\n`, and `\n]`; and in
the order of the effects this POST comes right before the send of the filename
on `done`, which is the last effect. -/
theorem partial_final_batch (B : Nat) (hB : 1 ≤ B) (name : String) (lines : List String)
    (hne : ∀ l ∈ lines, l.length ≠ 0) (hr : lines.length % B > 0) :
    (importOne B name (.stream (wholeReads lines) .eof)).posted.getLast?
      = some ("[\n" ++ String.intercalate ",\n"
          (lines.drop (lines.length - lines.length % B)) ++ "\n]")
    ∧ (lines.drop (lines.length - lines.length % B)).length = lines.length % B
    ∧ (∀ outs : Nat → PostOutcome, ∃ pre : List Effect,
        (importOneT B outs name (.stream (wholeReads lines) .eof)).trace.map Effect.erase
          = pre ++ [Effect.post ("[\n" ++ String.intercalate ",\n"
              (lines.drop (lines.length - lines.length % B)) ++ "\n]") false,
              Effect.send name]) := by
  have hall := importOne_whole B hB name lines hne
  have hlast := batches_getLast B hB lines hr
  refine ⟨by rw [hall]; exact hlast, ?_, ?_⟩
  · rw [List.length_drop]
    have := Nat.mod_le lines.length B
    omega
  · intro outs
    rw [importOneT_trace, hall]
    refine ⟨((batches B lines).dropLast).map (fun p => Effect.post p false), ?_⟩
    have hsplit := List.dropLast_append_getLast? _ hlast
    conv_lhs => rw [← hsplit]
    simp

/-- C15 at `B = 2` and the lines `{"a":1}`, `{"a":2}`, `{"a":3}`: the last payload
is `[\n{"a":3}\n]`. -/
theorem partial_final_batch_witness :
    1 ≤ 2 ∧ ["\x7b\"a\":1\x7d", "\x7b\"a\":2\x7d", "\x7b\"a\":3\x7d"].length % 2 > 0
    ∧ (importOne 2 "f" (.stream
        (wholeReads ["\x7b\"a\":1\x7d", "\x7b\"a\":2\x7d", "\x7b\"a\":3\x7d"]) .eof)).posted.getLast?
      = some "[\n\x7b\"a\":3\x7d\n]" :=
  ⟨by decide, by decide,
    (partial_final_batch 2 (by decide) "f"
      ["\x7b\"a\":1\x7d", "\x7b\"a\":2\x7d", "\x7b\"a\":3\x7d"] (by decide) (by decide)).1.trans
      (by decide)⟩

/-! ## Shutdown -/

theorem step_tick_exited (c : Coord) (r : ScanResult) :
    (step c (.tick r)).exited = c.exited := by
  simp only [step]
  split
  · rfl
  · cases r <;> rfl

theorem step_done_exited (c : Coord) (f : String) : (step c (.done f)).exited = c.exited := by
  simp only [step]
  split <;> rfl

theorem step_quit_exited (c : Coord) : (step c .quit).exited = true := by
  simp only [step]
  split
  · assumption
  · rfl

theorem workerStep_todo_exited (B : Nat) (w : Worker) (f : String) (file : FileInput) :
    (workerStep B w (.todo f file)).exited = w.exited := by
  simp only [workerStep]
  split <;> rfl

theorem afterSend_inv (i a b : Nat) (h : i = a + b) (hi : i < 2) :
    match afterSend i with
    | .awaitingSignal => a + b + 1 = 0
    | .sending k => k = a + b + 1 ∧ k < 2
    | .waiting => a + b + 1 = 2
    | .returned => a + b + 1 = 2 := by
  unfold afterSend
  by_cases h2 : i + 1 < 2
  · simp only [if_pos h2]
    exact ⟨by omega, h2⟩
  · simp only [if_neg h2]
    omega

theorem inv_step (B : Nat) (s s2 : Sys) (c : Choice) (hinv : ShutdownInv s)
    (h : sysStep B s c = some s2) : ShutdownInv s2 := by
  obtain ⟨h1, h2, h3, h4, h5⟩ := hinv
  cases c with
  | osSignal =>
    simp only [sysStep] at h
    split at h
    · rename_i hm
      rw [hm] at h5
      cases h
      have h6 : s.coordGot + s.workerGot = 0 := h5
      exact ⟨h1, h2, h3, h4, ⟨h6.symm, by decide⟩⟩
    · cases h
  | coordTick r =>
    simp only [sysStep] at h
    split at h
    · cases h
    · cases h
      exact ⟨h1, h2, by simpa [step_tick_exited] using h3, h4, h5⟩
  | coordDone =>
    simp only [sysStep] at h
    split at h
    · split at h
      · cases h
      · cases h
        exact ⟨h1, h2, by simpa [step_done_exited] using h3, h4, h5⟩
    · cases h
  | coordQuit =>
    simp only [sysStep] at h
    split at h
    · rename_i i hm
      rw [hm] at h5
      split at h
      · cases h
      · rename_i hex
        cases h
        have hg : s.coordGot = 0 := by
          have : ¬ s.coordGot = 1 := fun e => hex (h3.2 e)
          omega
        refine ⟨by simp [hg], h2, by simp [step_quit_exited, hg], h4, ?_⟩
        have := afterSend_inv i s.coordGot s.workerGot h5.1 h5.2
        simpa [Nat.add_assoc, Nat.add_comm 1, Nat.add_left_comm] using this
    · cases h
  | workerTake file =>
    simp only [sysStep] at h
    split at h
    · split at h
      · cases h
      · cases h
        exact ⟨h1, h2, h3, by simpa [workerStep_todo_exited] using h4, h5⟩
    · cases h
  | workerQuit =>
    simp only [sysStep] at h
    split at h
    · rename_i i hm
      rw [hm] at h5
      split at h
      · cases h
      · rename_i hex
        cases h
        have hg : s.workerGot = 0 := by
          have : ¬ s.workerGot = 1 := fun e => hex (h4.2 e)
          omega
        refine ⟨h1, by simp [hg], h3, by simp [workerStep, hg], ?_⟩
        exact afterSend_inv i s.coordGot s.workerGot h5.1 h5.2
    · cases h
  | mainReturn =>
    simp only [sysStep] at h
    split at h
    · rename_i hm
      rw [hm] at h5
      split at h
      · cases h
        exact ⟨h1, h2, h3, h4, h5⟩
      · cases h
    · cases h

theorem inv_run (B : Nat) (sched : List Choice) :
    ∀ s s2 : Sys, ShutdownInv s → run B s sched = some s2 → ShutdownInv s2 := by
  induction sched with
  | nil => intro s s2 hinv h; simp only [run] at h; cases h; exact hinv
  | cons c cs ih =>
    intro s s2 hinv h
    simp only [run] at h
    cases hc : sysStep B s c with
    | none => rw [hc] at h; cases h
    | some s1 =>
      rw [hc] at h
      exact ih s1 s2 (inv_step B s s1 c hinv hc) h

theorem fifo_step (B : Nat) (s s2 : Sys) (c : Choice) (h : sysStep B s c = some s2) :
    ∃ later, s2.opened ++ s2.todoQ = s.opened ++ s.todoQ ++ later := by
  cases c with
  | osSignal =>
    simp only [sysStep] at h
    split at h
    · cases h; exact ⟨[], by simp⟩
    · cases h
  | coordTick r =>
    simp only [sysStep] at h
    split at h
    · cases h
    · cases h; exact ⟨sentBy s.coord.toimp r, by simp⟩
  | coordDone =>
    simp only [sysStep] at h
    split at h
    · split at h
      · cases h
      · cases h; exact ⟨[], by simp⟩
    · cases h
  | coordQuit =>
    simp only [sysStep] at h
    split at h
    · split at h
      · cases h
      · cases h; exact ⟨[], by simp⟩
    · cases h
  | workerTake file =>
    simp only [sysStep] at h
    split at h
    · rename_i f rest hq
      split at h
      · cases h
      · cases h; exact ⟨[], by simp [hq]⟩
    · cases h
  | workerQuit =>
    simp only [sysStep] at h
    split at h
    · split at h
      · cases h
      · cases h; exact ⟨[], by simp⟩
    · cases h
  | mainReturn =>
    simp only [sysStep] at h
    split at h
    · split at h
      · cases h; exact ⟨[], by simp⟩
      · cases h
    · cases h

theorem fifo_run (B : Nat) (sched : List Choice) :
    ∀ s s2 : Sys, run B s sched = some s2 →
      ∃ later, s2.opened ++ s2.todoQ = s.opened ++ s.todoQ ++ later := by
  induction sched with
  | nil => intro s s2 h; simp only [run] at h; cases h; exact ⟨[], by simp⟩
  | cons c cs ih =>
    intro s s2 h
    simp only [run] at h
    cases hc : sysStep B s c with
    | none => rw [hc] at h; cases h
    | some s1 =>
      rw [hc] at h
      obtain ⟨l1, e1⟩ := fifo_step B s s1 c hc
      obtain ⟨l2, e2⟩ := ih s1 s2 h
      exact ⟨l1 ++ l2, by rw [e2, e1]; simp⟩

theorem frozen_step (B : Nat) (s s2 : Sys) (c : Choice) (hex : s.worker.exited = true)
    (h : sysStep B s c = some s2) : s2.opened = s.opened ∧ s2.worker.exited = true := by
  cases c with
  | osSignal =>
    simp only [sysStep] at h
    split at h
    · cases h; exact ⟨rfl, hex⟩
    · cases h
  | coordTick r =>
    simp only [sysStep] at h
    split at h
    · cases h
    · cases h; exact ⟨rfl, hex⟩
  | coordDone =>
    simp only [sysStep] at h
    split at h
    · split at h
      · cases h
      · cases h; exact ⟨rfl, hex⟩
    · cases h
  | coordQuit =>
    simp only [sysStep] at h
    split at h
    · split at h
      · cases h
      · cases h; exact ⟨rfl, hex⟩
    · cases h
  | workerTake file =>
    simp only [sysStep, hex] at h
    split at h
    · simp at h
    · cases h
  | workerQuit =>
    simp only [sysStep, hex] at h
    split at h
    · simp at h
    · cases h
  | mainReturn =>
    simp only [sysStep] at h
    split at h
    · split at h
      · cases h; exact ⟨rfl, hex⟩
      · cases h
    · cases h

theorem frozen_run (B : Nat) (sched : List Choice) :
    ∀ s s2 : Sys, s.worker.exited = true → run B s sched = some s2 →
      s2.opened = s.opened := by
  induction sched with
  | nil => intro s s2 _ h; simp only [run] at h; cases h; rfl
  | cons c cs ih =>
    intro s s2 hex h
    simp only [run] at h
    cases hc : sysStep B s c with
    | none => rw [hc] at h; cases h
    | some s1 =>
      rw [hc] at h
      have h1 := frozen_step B s s1 c hex hc
      rw [ih s1 s2 h1.2 h, h1.1]

theorem start_inv (s : Sys) (h : ShutdownStart s) : ShutdownInv s := by
  obtain ⟨hm, hc, hw, hcg, hwg, _⟩ := h
  refine ⟨by omega, by omega, by simp [hc, hcg], by simp [hw, hwg], ?_⟩
  rw [hm]
  exact ⟨by omega, by decide⟩

/-- C13, as stated, fails: from a reachable state in which `main` is blocked in
its first send on `quit`, `todo` holds `a.gz`, `b.gz`, `c.gz` and the worker is in
its `select`, both cases of the `select` of `importFile` can proceed; in the
execution where the case `filename = <-todo` is taken first, the worker takes
`a.gz` and passes it to `os.Open` before it receives from `quit` and returns. -/
theorem shutdown_may_take_queued :
    run 100 {} [.coordTick (.files ["a.gz", "b.gz", "c.gz"]), .osSignal] = some queuedStart
    ∧ ShutdownStart queuedStart
    ∧ (run 100 queuedStart
        [.workerTake (.stream [] .eof), .workerQuit, .coordQuit, .mainReturn]).map
          (fun s => (s.opened, s.todoQ, s.worker.exited, s.main))
        = some (["a.gz"], ["b.gz", "c.gz"], true, MainPc.returned)
    ∧ ¬ (∀ (sched : List Choice) (s : Sys), run 100 queuedStart sched = some s →
          s.worker.exited = true → s.opened = []) := by
  refine ⟨by decide, by unfold ShutdownStart; decide, by decide, ?_⟩
  intro h
  have hrun : run 100 queuedStart [.workerTake (.stream [] .eof), .workerQuit]
      = some { queuedStart with
          main := .sending 1, todoQ := ["b.gz", "c.gz"], doneQ := ["a.gz"],
          opened := ["a.gz"], workerGot := 1,
          worker := { posted := [], done := ["a.gz"], exited := true } } := by decide
  have := h _ _ hrun rfl
  simp at this

/-- C13, amended: from every state in which `main` is blocked in its first send
on `quit` and neither goroutine has returned, whatever `todo` holds, there is an
execution in which `importFile` returns without taking any filename and
`wg.Wait()` returns with `todo` untouched; and in every execution each goroutine
receives at most one value of `quit` and has returned exactly when it has
received one, `wg.Wait()` has returned only when the coordinator and the worker
have each received exactly one value and returned, the names the worker has
taken are the first names of the queue in order, and once the worker has
returned it takes no further name. -/
theorem shutdown_signal_once (B : Nat) (s0 : Sys) (h0 : ShutdownStart s0) :
    (run B s0 [.workerQuit, .coordQuit, .mainReturn]).map
        (fun s => (s.opened, s.todoQ, s.main, s.coordGot, s.workerGot,
          s.coord.exited, s.worker.exited))
      = some ([], s0.todoQ, MainPc.returned, 1, 1, true, true)
    ∧ (∀ (sched : List Choice) (s : Sys), run B s0 sched = some s →
        s.coordGot ≤ 1 ∧ s.workerGot ≤ 1
        ∧ (s.coord.exited = true ↔ s.coordGot = 1)
        ∧ (s.worker.exited = true ↔ s.workerGot = 1)
        ∧ (s.main = .returned →
            s.coordGot = 1 ∧ s.workerGot = 1 ∧ s.coord.exited = true
            ∧ s.worker.exited = true)
        ∧ (∃ later, s.opened ++ s.todoQ = s0.todoQ ++ later)
        ∧ (s.worker.exited = true →
            ∀ (sched2 : List Choice) (s2 : Sys), run B s sched2 = some s2 →
              s2.opened = s.opened)) := by
  constructor
  · obtain ⟨hm, hc, hw, hcg, hwg, hop⟩ := h0
    simp [run, sysStep, hm, hc, hw, hcg, hwg, hop, afterSend, workerStep, step]
  · intro sched s hrun
    obtain ⟨h1, h2, h3, h4, h5⟩ := inv_run B sched s0 s (start_inv s0 h0) hrun
    refine ⟨h1, h2, h3, h4, ?_, ?_, fun hex sched2 s2 h => frozen_run B sched2 s s2 hex h⟩
    · intro hm
      rw [hm] at h5
      have h6 : s.coordGot + s.workerGot = 2 := h5
      have hc : s.coordGot = 1 := by omega
      have hw : s.workerGot = 1 := by omega
      exact ⟨hc, hw, h3.2 hc, h4.2 hw⟩
    · obtain ⟨later, e⟩ := fifo_run B sched s0 s hrun
      exact ⟨later, by rw [e, h0.2.2.2.2.2]; simp⟩

/-- C13, amended, at the state with `a.gz`, `b.gz`, `c.gz` queued: in the
execution where the worker receives from `quit` first, no file is opened. -/
theorem shutdown_signal_once_witness :
    ShutdownStart queuedStart
    ∧ (run 100 queuedStart [.workerQuit, .coordQuit, .mainReturn]).map
        (fun s => (s.opened, s.todoQ, s.main, s.coordGot, s.workerGot,
          s.coord.exited, s.worker.exited))
      = some ([], ["a.gz", "b.gz", "c.gz"], MainPc.returned, 1, 1, true, true) :=
  ⟨by unfold ShutdownStart; decide,
    (shutdown_signal_once 100 queuedStart (by unfold ShutdownStart; decide)).1⟩

end Importer

